import Mathlib

/-!
Verification of the container layer of the SC library (`sc_containers.h`).

The data model is a shallow embedding: a `sc_array` stores its valid
elements as a Lean list (`elems`), together with the byte bookkeeping
(`elem_size`, `byte_alloc`) that the C struct carries.  Machine pointers
are modelled as natural numbers.  Functions implemented inline in the
header (`sc_array_push`, `sc_array_pop`, `sc_mempool_alloc`,
`sc_mempool_free`) are translated directly from that code; operations that
the header only declares (`sc_array_resize`, `sc_array_sort`,
`sc_array_uniq`, `sc_array_bsearch`, the pqueue, hash, hash array and
recycle array operations) are modelled from the specification text and
carry a `Modelled from the spec:` note in their doc comment.
-/

namespace SC

/-- The sc_array object: `elem_size` bytes per element, the list of valid
elements (whose length is `elem_count`), and the allocated byte count. -/
structure sc_array (α : Type) where
  elem_size : Nat
  elems : List α
  byte_alloc : Nat
deriving Repr, DecidableEq

namespace sc_array

/-- `elem_count` is the number of valid elements. -/
def elem_count (a : sc_array α) : Nat := a.elems.length

/-- `sc_array_init` / `sc_array_new`: zero elements, no bytes allocated. -/
def init (elem_size : Nat) : sc_array α :=
  { elem_size := elem_size, elems := [], byte_alloc := 0 }

end sc_array

/-- Modelled from the spec: `sc_array_resize` "grows the backing buffer only
when `new_count * elem_size` exceeds current `byte_alloc`, using geometric
(doubling-class) growth ...; shrinking never reallocates until a full
reset".  This function returns the byte allocation after a resize to
`new_count`; the element contents are supplied by each caller because a
grown region is uninitialized. -/
def sc_array_resize_bytes (a : sc_array α) (new_count : Nat) : Nat :=
  if a.elem_size * new_count > a.byte_alloc then
    max (a.elem_size * new_count) (2 * a.byte_alloc)
  else
    a.byte_alloc

/-- `sc_array_push`: if `elem_size * (elem_count + 1) > byte_alloc` the
array is resized to `old_count + 1` (growing `byte_alloc` geometrically),
otherwise only `elem_count` is bumped.  The C function returns a pointer to
the uninitialized new last element; the model takes the value `v` the
caller stores there and appends it. -/
def sc_array_push (a : sc_array α) (v : α) : sc_array α :=
  if a.elem_size * (a.elem_count + 1) > a.byte_alloc then
    { a with elems := a.elems ++ [v],
             byte_alloc := sc_array_resize_bytes a (a.elem_count + 1) }
  else
    { a with elems := a.elems ++ [v] }

/-- `sc_array_pop`: asserts `elem_count > 0`, decrements `elem_count` and
returns (a pointer to) the removed last element.  `byte_alloc` is not
touched.  The model returns the removed element (`none` when the
precondition is violated) together with the new state. -/
def sc_array_pop (a : sc_array α) : Option α × sc_array α :=
  (a.elems.getLast?, { a with elems := a.elems.dropLast })

/-- One push or pop step on an array, for reasoning about call sequences. -/
inductive ArrayOp (α : Type) where
  | push (v : α)
  | pop
deriving Repr, DecidableEq

/-- Apply one operation to an array. -/
def applyArrayOp (a : sc_array α) : ArrayOp α → sc_array α
  | .push v => sc_array_push a v
  | .pop => (sc_array_pop a).2

/-- Run a sequence of push/pop operations. -/
def runArrayOps (a : sc_array α) : List (ArrayOp α) → sc_array α
  | [] => a
  | op :: ops => runArrayOps (applyArrayOp a op) ops

/-- A sequence is valid when each pop is preceded by `elem_count > 0`
(the `SC_ASSERT` in `sc_array_pop`). -/
def ValidArrayOps (a : sc_array α) : List (ArrayOp α) → Bool
  | [] => true
  | .push v :: ops => ValidArrayOps (sc_array_push a v) ops
  | .pop :: ops => decide (0 < a.elem_count) && ValidArrayOps ((sc_array_pop a).2) ops

/-- Number of pushes in an operation sequence. -/
def numPushes (ops : List (ArrayOp α)) : Nat :=
  ops.countP (fun op => match op with | .push _ => true | .pop => false)

/-- Number of pops in an operation sequence. -/
def numPops (ops : List (ArrayOp α)) : Nat :=
  ops.countP (fun op => match op with | .push _ => false | .pop => true)

theorem numPushes_nil : numPushes ([] : List (ArrayOp α)) = 0 := rfl

theorem numPushes_cons (op : ArrayOp α) (ops : List (ArrayOp α)) :
    numPushes (op :: ops) =
      (match op with | .push _ => 1 | .pop => 0) + numPushes ops := by
  cases op with
  | push v => simp [numPushes, List.countP_cons, Nat.add_comm]
  | pop => simp [numPushes, List.countP_cons]

theorem numPops_cons (op : ArrayOp α) (ops : List (ArrayOp α)) :
    numPops (op :: ops) =
      (match op with | .push _ => 0 | .pop => 1) + numPops ops := by
  cases op with
  | push v => simp [numPops, List.countP_cons]
  | pop => simp [numPops, List.countP_cons, Nat.add_comm]

theorem elem_count_push (a : sc_array α) (v : α) :
    (sc_array_push a v).elem_count = a.elem_count + 1 := by
  unfold sc_array_push
  split <;> simp [sc_array.elem_count]

theorem elem_count_pop (a : sc_array α) :
    (sc_array_pop a).2.elem_count = a.elem_count - 1 := by
  simp [sc_array_pop, sc_array.elem_count]

theorem byte_alloc_push_le (a : sc_array α) (v : α) :
    a.byte_alloc ≤ (sc_array_push a v).byte_alloc := by
  unfold sc_array_push sc_array_resize_bytes
  split
  · exact le_trans (by omega) (le_max_right _ _)
  · exact le_refl _

theorem byte_alloc_pop (a : sc_array α) :
    (sc_array_pop a).2.byte_alloc = a.byte_alloc := rfl

theorem byte_alloc_applyArrayOp_le (a : sc_array α) (op : ArrayOp α) :
    a.byte_alloc ≤ (applyArrayOp a op).byte_alloc := by
  cases op
  · exact byte_alloc_push_le a _
  · exact le_of_eq (byte_alloc_pop a).symm

theorem byte_alloc_runArrayOps_le (a : sc_array α) (ops : List (ArrayOp α)) :
    a.byte_alloc ≤ (runArrayOps a ops).byte_alloc := by
  induction ops generalizing a with
  | nil => exact le_refl _
  | cons op ops ih =>
    exact le_trans (byte_alloc_applyArrayOp_le a op) (ih (applyArrayOp a op))

theorem runArrayOps_append (a : sc_array α) (l₁ l₂ : List (ArrayOp α)) :
    runArrayOps a (l₁ ++ l₂) = runArrayOps (runArrayOps a l₁) l₂ := by
  induction l₁ generalizing a with
  | nil => rfl
  | cons op ops ih => simp [runArrayOps, ih]

/-- Count bookkeeping along a valid sequence, in additive form (no natural
subtraction): final count plus pops equals initial count plus pushes. -/
theorem elem_count_runArrayOps (a : sc_array α) (ops : List (ArrayOp α))
    (hv : ValidArrayOps a ops = true) :
    (runArrayOps a ops).elem_count + numPops ops = a.elem_count + numPushes ops := by
  induction ops generalizing a with
  | nil => simp [runArrayOps, numPushes, numPops]
  | cons op ops ih =>
    cases op with
    | push v =>
      rw [ValidArrayOps] at hv
      have h := ih (sc_array_push a v) hv
      rw [numPushes_cons, numPops_cons]
      simp only [runArrayOps, applyArrayOp]
      rw [elem_count_push] at h
      omega
    | pop =>
      rw [ValidArrayOps, Bool.and_eq_true, decide_eq_true_eq] at hv
      obtain ⟨hpos, hv'⟩ := hv
      have h := ih ((sc_array_pop a).2) hv'
      rw [numPushes_cons, numPops_cons]
      simp only [runArrayOps, applyArrayOp]
      rw [elem_count_pop] at h
      omega

/-- C1: starting from an array with zero elements, after any valid sequence
of `sc_array_push`/`sc_array_pop` calls (each pop preceded by
`elem_count > 0`), the resulting `elem_count` equals the number of pushes
minus the number of pops, and `byte_alloc` never decreases between any two
points of the sequence. -/
theorem sc_array_push_pop_claim (α : Type) (a₀ : sc_array α)
    (h₀ : a₀.elem_count = 0) (ops : List (ArrayOp α))
    (hv : ValidArrayOps a₀ ops = true) :
    (runArrayOps a₀ ops).elem_count = numPushes ops - numPops ops ∧
    ∀ pre₁ pre₂ : List (ArrayOp α), pre₁ <+: pre₂ → pre₂ <+: ops →
      (runArrayOps a₀ pre₁).byte_alloc ≤ (runArrayOps a₀ pre₂).byte_alloc := by
  constructor
  · have h := elem_count_runArrayOps a₀ ops hv
    omega
  · intro pre₁ pre₂ h12 _
    obtain ⟨t, ht⟩ := h12
    subst ht
    rw [runArrayOps_append]
    exact byte_alloc_runArrayOps_le _ t

/-- Witness for C1 at a concrete input: two pushes then one pop on a fresh
array of 4-byte elements leaves one element. -/
theorem sc_array_push_pop_claim_witness :
    ((sc_array.init 4 : sc_array Nat).elem_count = 0 ∧
      ValidArrayOps (sc_array.init 4 : sc_array Nat)
        [ArrayOp.push 7, ArrayOp.push 9, ArrayOp.pop] = true) ∧
    (runArrayOps (sc_array.init 4 : sc_array Nat)
        [ArrayOp.push 7, ArrayOp.push 9, ArrayOp.pop]).elem_count =
      numPushes [ArrayOp.push (7 : Nat), ArrayOp.push 9, ArrayOp.pop] -
        numPops [ArrayOp.push (7 : Nat), ArrayOp.push 9, ArrayOp.pop] := by
  refine ⟨⟨by decide, by decide⟩, ?_⟩
  exact (sc_array_push_pop_claim Nat (sc_array.init 4) (by decide)
    [ArrayOp.push 7, ArrayOp.push 9, ArrayOp.pop] (by decide)).1

/-! ### Three-way comparators (sort, uniq, bsearch, pqueue) -/

/-- A consistent three-way comparator in the `qsort` convention
(negative/zero/positive for less/equal/greater): the induced `≤` is
transitive, and the sign flips when the arguments are swapped. -/
structure IsThreeWayCmp (cmp : α → α → Int) : Prop where
  le_trans : ∀ a b c, cmp a b ≤ 0 → cmp b c ≤ 0 → cmp a c ≤ 0
  lt_iff_gt : ∀ a b, cmp a b < 0 ↔ 0 < cmp b a

namespace IsThreeWayCmp

variable {cmp : α → α → Int}

theorem refl (hc : IsThreeWayCmp cmp) (a : α) : cmp a a = 0 := by
  have h := hc.lt_iff_gt a a
  omega

theorem total (hc : IsThreeWayCmp cmp) (a b : α) : cmp a b ≤ 0 ∨ cmp b a ≤ 0 := by
  have h := hc.lt_iff_gt a b
  omega

theorem le_of_not_le (hc : IsThreeWayCmp cmp) {a b : α} (h : ¬ cmp a b ≤ 0) :
    cmp b a ≤ 0 := by
  have h' := hc.lt_iff_gt b a
  omega

theorem eq_symm (hc : IsThreeWayCmp cmp) {a b : α} (h : cmp a b = 0) : cmp b a = 0 := by
  have h₁ := hc.lt_iff_gt a b
  have h₂ := hc.lt_iff_gt b a
  omega

theorem lt_of_le_of_lt (hc : IsThreeWayCmp cmp) {a b c : α}
    (hab : cmp a b ≤ 0) (hbc : cmp b c < 0) : cmp a c < 0 := by
  by_contra h
  have hca : cmp c a ≤ 0 := by
    have := hc.lt_iff_gt a c
    omega
  have hcb : cmp c b ≤ 0 := hc.le_trans c a b hca hab
  have := hc.lt_iff_gt b c
  omega

theorem lt_of_lt_of_le (hc : IsThreeWayCmp cmp) {a b c : α}
    (hab : cmp a b < 0) (hbc : cmp b c ≤ 0) : cmp a c < 0 := by
  by_contra h
  have hca : cmp c a ≤ 0 := by
    have := hc.lt_iff_gt a c
    omega
  have hba : cmp b a ≤ 0 := hc.le_trans b c a hbc hca
  have := hc.lt_iff_gt a b
  omega

/-- Transitivity of comparing equal. -/
theorem eq_trans (hc : IsThreeWayCmp cmp) {a b c : α}
    (hab : cmp a b = 0) (hbc : cmp b c = 0) : cmp a c = 0 := by
  have h₁ : cmp a c ≤ 0 := hc.le_trans a b c (by omega) (by omega)
  have h₂ : cmp c a ≤ 0 :=
    hc.le_trans c b a (le_of_eq (hc.eq_symm hbc)) (le_of_eq (hc.eq_symm hab))
  have := hc.lt_iff_gt a c
  omega

end IsThreeWayCmp

/-- Modelled from the spec: `sc_array_sort` "yields a non-decreasing order"
with respect to the three-way comparator.  The model sorts the element list
by the induced `≤` relation. -/
def sc_array_sort (cmp : α → α → Int) (a : sc_array α) : sc_array α :=
  { a with elems := List.insertionSort (fun x y => cmp x y ≤ 0) a.elems }

/-- Helper for `sc_array_uniq`: the head element `x` is kept; any adjacent
element comparing equal to the kept element is dropped. -/
def uniqAux (cmp : α → α → Int) (x : α) : List α → List α
  | [] => [x]
  | y :: rest =>
    if cmp x y = 0 then uniqAux cmp x rest else x :: uniqAux cmp y rest

/-- Modelled from the spec: `sc_array_uniq` "requires a pre-sorted array and
removes adjacent duplicates, only ever shrinking `elem_count`". -/
def sc_uniq_list (cmp : α → α → Int) : List α → List α
  | [] => []
  | x :: rest => uniqAux cmp x rest

/-- `sc_array_uniq` shrinks the element count as needed; the allocation is
untouched (shrinking never reallocates). -/
def sc_array_uniq (cmp : α → α → Int) (a : sc_array α) : sc_array α :=
  { a with elems := sc_uniq_list cmp a.elems }

theorem uniqAux_head (cmp : α → α → Int) (x : α) (l : List α) :
    ∃ t, uniqAux cmp x l = x :: t := by
  induction l generalizing x with
  | nil => exact ⟨[], rfl⟩
  | cons y rest ih =>
    by_cases h : cmp x y = 0
    · simpa [uniqAux, h] using ih x
    · exact ⟨uniqAux cmp y rest, by simp [uniqAux, h]⟩

theorem uniqAux_chain' (cmp : α → α → Int) (x : α) (l : List α) :
    List.Chain' (fun a b => cmp a b ≠ 0) (uniqAux cmp x l) := by
  induction l generalizing x with
  | nil => simp [uniqAux]
  | cons y rest ih =>
    by_cases h : cmp x y = 0
    · simpa [uniqAux, h] using ih x
    · obtain ⟨t, ht⟩ := uniqAux_head cmp y rest
      simp only [uniqAux, h, if_false]
      rw [List.chain'_cons', ht]
      refine ⟨?_, by rw [← ht]; exact ih y⟩
      intro z hz
      simp only [List.head?_cons, Option.mem_def, Option.some.injEq] at hz
      subst hz
      exact h

theorem uniqAux_length (cmp : α → α → Int) (x : α) (l : List α) :
    (uniqAux cmp x l).length ≤ l.length + 1 := by
  induction l generalizing x with
  | nil => simp [uniqAux]
  | cons y rest ih =>
    by_cases h : cmp x y = 0
    · simp only [uniqAux, h, if_true]
      exact le_trans (ih x) (by simp)
    · simp only [uniqAux, h, if_false, List.length_cons]
      exact Nat.succ_le_succ (ih y)

theorem sc_uniq_list_chain' (cmp : α → α → Int) (l : List α) :
    List.Chain' (fun a b => cmp a b ≠ 0) (sc_uniq_list cmp l) := by
  cases l with
  | nil => simp [sc_uniq_list]
  | cons x rest => exact uniqAux_chain' cmp x rest

theorem sc_uniq_list_length (cmp : α → α → Int) (l : List α) :
    (sc_uniq_list cmp l).length ≤ l.length := by
  cases l with
  | nil => simp [sc_uniq_list]
  | cons x rest => exact uniqAux_length cmp x rest

/-- C2: after `sc_array_sort cmp`, every adjacent pair compares `≤ 0`; after
a subsequent `sc_array_uniq cmp`, no two adjacent elements compare equal and
`elem_count` does not increase. -/
theorem sc_array_sort_uniq_claim (cmp : α → α → Int) (hc : IsThreeWayCmp cmp)
    (a : sc_array α) :
    (∀ i : Nat, ∀ h : i + 1 < (sc_array_sort cmp a).elems.length,
        cmp ((sc_array_sort cmp a).elems.get ⟨i, Nat.lt_of_succ_lt h⟩)
            ((sc_array_sort cmp a).elems.get ⟨i + 1, h⟩) ≤ 0) ∧
    (∀ i : Nat, ∀ h : i + 1 < (sc_array_uniq cmp (sc_array_sort cmp a)).elems.length,
        cmp ((sc_array_uniq cmp (sc_array_sort cmp a)).elems.get ⟨i, Nat.lt_of_succ_lt h⟩)
            ((sc_array_uniq cmp (sc_array_sort cmp a)).elems.get ⟨i + 1, h⟩) ≠ 0) ∧
    (sc_array_uniq cmp (sc_array_sort cmp a)).elem_count ≤
      (sc_array_sort cmp a).elem_count := by
  haveI : IsTotal α (fun x y => cmp x y ≤ 0) :=
    ⟨fun x y => hc.total x y⟩
  haveI : IsTrans α (fun x y => cmp x y ≤ 0) :=
    ⟨fun x y z => hc.le_trans x y z⟩
  refine ⟨?_, ?_, ?_⟩
  · intro i h
    simp only [sc_array_sort] at h ⊢
    have hs : List.Sorted (fun x y => cmp x y ≤ 0)
        (List.insertionSort (fun x y => cmp x y ≤ 0) a.elems) :=
      List.sorted_insertionSort _ a.elems
    have hch := List.chain'_iff_pairwise.2 hs
    rw [List.chain'_iff_get] at hch
    exact hch i (by omega)
  · intro i h
    simp only [sc_array_uniq] at h ⊢
    have hch := sc_uniq_list_chain' cmp (sc_array_sort cmp a).elems
    rw [List.chain'_iff_get] at hch
    exact hch i (by omega)
  · exact sc_uniq_list_length cmp (sc_array_sort cmp a).elems

/-- Integer subtraction as the canonical three-way comparator. -/
def intCmp (x y : Int) : Int := x - y

theorem intCmp_valid : IsThreeWayCmp intCmp := by
  constructor
  · intro a b c h₁ h₂
    simp only [intCmp] at *
    omega
  · intro a b
    simp only [intCmp]
    omega

/-- Witness for C2 at a concrete input: sorting then uniquing `[3, 1, 2, 2]`. -/
theorem sc_array_sort_uniq_claim_witness :
    IsThreeWayCmp intCmp ∧
    ((∀ i : Nat, ∀ h : i + 1 <
          (sc_array_sort intCmp ⟨8, [3, 1, 2, 2], 32⟩).elems.length,
        intCmp ((sc_array_sort intCmp ⟨8, [3, 1, 2, 2], 32⟩).elems.get ⟨i, Nat.lt_of_succ_lt h⟩)
            ((sc_array_sort intCmp ⟨8, [3, 1, 2, 2], 32⟩).elems.get ⟨i + 1, h⟩) ≤ 0) ∧
    (∀ i : Nat, ∀ h : i + 1 <
          (sc_array_uniq intCmp (sc_array_sort intCmp ⟨8, [3, 1, 2, 2], 32⟩)).elems.length,
        intCmp ((sc_array_uniq intCmp
              (sc_array_sort intCmp ⟨8, [3, 1, 2, 2], 32⟩)).elems.get ⟨i, Nat.lt_of_succ_lt h⟩)
            ((sc_array_uniq intCmp
              (sc_array_sort intCmp ⟨8, [3, 1, 2, 2], 32⟩)).elems.get ⟨i + 1, h⟩) ≠ 0) ∧
    (sc_array_uniq intCmp (sc_array_sort intCmp ⟨8, [3, 1, 2, 2], 32⟩)).elem_count ≤
      (sc_array_sort intCmp ⟨8, [3, 1, 2, 2], 32⟩).elem_count) :=
  ⟨intCmp_valid, sc_array_sort_uniq_claim intCmp intCmp_valid ⟨8, [3, 1, 2, 2], 32⟩⟩

/-! ### Binary search (C3) -/

/-- Modelled from the spec: `sc_array_bsearch` performs a "binary search
over a sorted array; returns the index of a matching element or a not-found
sentinel".  The recursion searches the half-open index range `[lo, hi)`,
comparing `key` against the middle element with the three-way comparator. -/
def bsearchAux [Inhabited α] (cmp : α → α → Int) (key : α) (l : List α) :
    Nat → Nat → Option Nat
  | lo, hi =>
    if h : lo < hi then
      let mid := (lo + hi) / 2
      let c := cmp key (l.getD mid default)
      if c < 0 then bsearchAux cmp key l lo mid
      else if 0 < c then bsearchAux cmp key l (mid + 1) hi
      else some mid
    else
      none
termination_by lo hi => hi - lo
decreasing_by
  · omega
  · omega

/-- `sc_array_bsearch` returns the found index as a `ssize_t`, or the
sentinel `-1` when nothing compares equal to the key. -/
def sc_array_bsearch [Inhabited α] (a : sc_array α) (key : α)
    (cmp : α → α → Int) : Int :=
  match bsearchAux cmp key a.elems 0 a.elems.length with
  | none => -1
  | some i => (i : Int)

theorem bsearchAux_sound [Inhabited α] (cmp : α → α → Int) (key : α)
    (l : List α) (n lo hi : Nat) (hn : hi - lo ≤ n) (j : Nat)
    (h : bsearchAux cmp key l lo hi = some j) :
    lo ≤ j ∧ j < hi ∧ cmp key (l.getD j default) = 0 := by
  induction n generalizing lo hi with
  | zero =>
    rw [bsearchAux] at h
    rw [dif_neg (by omega)] at h
    exact absurd h (by simp)
  | succ n ih =>
    rw [bsearchAux] at h
    by_cases hlt : lo < hi
    · rw [dif_pos hlt] at h
      simp only at h
      by_cases h₁ : cmp key (l.getD ((lo + hi) / 2) default) < 0
      · rw [if_pos h₁] at h
        have := ih lo ((lo + hi) / 2) (by omega) h
        omega
      · rw [if_neg h₁] at h
        by_cases h₂ : 0 < cmp key (l.getD ((lo + hi) / 2) default)
        · rw [if_pos h₂] at h
          have := ih ((lo + hi) / 2 + 1) hi (by omega) h
          omega
        · rw [if_neg h₂] at h
          simp only [Option.some.injEq] at h
          subst h
          exact ⟨by omega, by omega, by omega⟩
    · rw [dif_neg hlt] at h
      exact absurd h (by simp)

theorem bsearchAux_complete [Inhabited α] (cmp : α → α → Int)
    (hc : IsThreeWayCmp cmp) (key : α) (l : List α)
    (hs : List.Pairwise (fun x y => cmp x y ≤ 0) l)
    (n lo hi : Nat) (hn : hi - lo ≤ n) (hhi : hi ≤ l.length)
    (i : Nat) (hilo : lo ≤ i) (hihi : i < hi)
    (hkey : cmp key (l.getD i default) = 0) :
    ∃ j, bsearchAux cmp key l lo hi = some j := by
  have hget : ∀ p q : Nat, p < q → q < l.length →
      cmp (l.getD p default) (l.getD q default) ≤ 0 := by
    intro p q hpq hq
    rw [List.getD_eq_getElem l default (by omega), List.getD_eq_getElem l default hq]
    rw [List.pairwise_iff_getElem] at hs
    exact hs p q (by omega) hq hpq
  induction n generalizing lo hi with
  | zero => omega
  | succ n ih =>
    have hlt : lo < hi := by omega
    rw [bsearchAux, dif_pos hlt]
    simp only
    set mid := (lo + hi) / 2 with hmid
    by_cases h₁ : cmp key (l.getD mid default) < 0
    · rw [if_pos h₁]
      -- the match cannot be at or above mid
      have himid : i < mid := by
        by_contra hge
        have hge' : mid ≤ i := by omega
        rcases Nat.eq_or_lt_of_le hge' with heq | hlt'
        · rw [heq] at h₁; omega
        · have hle := hget mid i hlt' (by omega)
          have := hc.lt_of_lt_of_le h₁ hle
          omega
      exact ih lo mid (by omega) (by omega) hilo himid
    · rw [if_neg h₁]
      by_cases h₂ : 0 < cmp key (l.getD mid default)
      · rw [if_pos h₂]
        -- the match cannot be at or below mid
        have himid : mid < i := by
          by_contra hge
          have hge' : i ≤ mid := by omega
          rcases Nat.eq_or_lt_of_le hge' with heq | hlt'
          · rw [← heq] at h₂; omega
          · have hle := hget i mid hlt' (by omega)
            have := hc.le_trans key (l.getD i default) (l.getD mid default)
              (by omega) hle
            omega
        exact ih (mid + 1) hi (by omega) hhi (by omega) hihi
      · rw [if_neg h₂]
        exact ⟨mid, rfl⟩

/-- C3: on an array sorted by `cmp`, `sc_array_bsearch` returns the index of
an element comparing equal to the key whenever one is present, and returns
the sentinel `-1` whenever no element compares equal to the key. -/
theorem sc_array_bsearch_claim [Inhabited α] (cmp : α → α → Int)
    (hc : IsThreeWayCmp cmp) (a : sc_array α)
    (hs : List.Pairwise (fun x y => cmp x y ≤ 0) a.elems) (key : α) :
    ((∃ i, ∃ h : i < a.elems.length, cmp key (a.elems.get ⟨i, h⟩) = 0) →
      ∃ j, ∃ h : j < a.elems.length, sc_array_bsearch a key cmp = (j : Int) ∧
        cmp key (a.elems.get ⟨j, h⟩) = 0) ∧
    ((∀ i, ∀ h : i < a.elems.length, cmp key (a.elems.get ⟨i, h⟩) ≠ 0) →
      sc_array_bsearch a key cmp = -1) := by
  constructor
  · rintro ⟨i, hi, hkey⟩
    have hkey' : cmp key (a.elems.getD i default) = 0 := by
      rw [List.getD_eq_getElem a.elems default hi]
      simpa [List.get_eq_getElem] using hkey
    obtain ⟨j, hj⟩ := bsearchAux_complete cmp hc key a.elems hs
      a.elems.length 0 a.elems.length (by omega) (le_refl _) i (by omega) hi hkey'
    obtain ⟨-, hjhi, hjkey⟩ := bsearchAux_sound cmp key a.elems
      a.elems.length 0 a.elems.length (by omega) j hj
    refine ⟨j, hjhi, ?_, ?_⟩
    · simp [sc_array_bsearch, hj]
    · rw [List.getD_eq_getElem a.elems default hjhi] at hjkey
      simpa [List.get_eq_getElem] using hjkey
  · intro hnone
    unfold sc_array_bsearch
    rcases hemp : bsearchAux cmp key a.elems 0 a.elems.length with _ | j
    · rfl
    · obtain ⟨-, hjhi, hjkey⟩ := bsearchAux_sound cmp key a.elems
        a.elems.length 0 a.elems.length (by omega) j hemp
      rw [List.getD_eq_getElem a.elems default hjhi] at hjkey
      exact absurd hjkey (by simpa [List.get_eq_getElem] using hnone j hjhi)

/-- Witness for C3 at a concrete input: searching the sorted array
`[1, 3, 5, 7]` for the present key `5` and reporting `-1` for any absent
key. -/
theorem sc_array_bsearch_claim_witness :
    (IsThreeWayCmp intCmp ∧
      List.Pairwise (fun x y => intCmp x y ≤ 0)
        (sc_array.mk 8 [1, 3, 5, 7] 32 : sc_array Int).elems) ∧
    (((∃ i, ∃ h : i < (sc_array.mk 8 [1, 3, 5, 7] 32 : sc_array Int).elems.length,
        intCmp 5 ((sc_array.mk 8 [1, 3, 5, 7] 32 : sc_array Int).elems.get ⟨i, h⟩) = 0) →
      ∃ j, ∃ h : j < (sc_array.mk 8 [1, 3, 5, 7] 32 : sc_array Int).elems.length,
        sc_array_bsearch (sc_array.mk 8 [1, 3, 5, 7] 32 : sc_array Int) 5 intCmp = (j : Int) ∧
        intCmp 5 ((sc_array.mk 8 [1, 3, 5, 7] 32 : sc_array Int).elems.get ⟨j, h⟩) = 0) ∧
    ((∀ i, ∀ h : i < (sc_array.mk 8 [1, 3, 5, 7] 32 : sc_array Int).elems.length,
        intCmp 5 ((sc_array.mk 8 [1, 3, 5, 7] 32 : sc_array Int).elems.get ⟨i, h⟩) ≠ 0) →
      sc_array_bsearch (sc_array.mk 8 [1, 3, 5, 7] 32 : sc_array Int) 5 intCmp = -1)) := by
  refine ⟨⟨intCmp_valid, ?_⟩, ?_⟩
  · simp only [sc_array.mk]
    decide
  · exact sc_array_bsearch_claim intCmp intCmp_valid
      (sc_array.mk 8 [1, 3, 5, 7] 32) (by simp only [sc_array.mk]; decide) 5

/-! ### Memory pool (C5, C10) -/

/-- The sc_mempool object.  The `freed` free-list is the same `sc_array`
structure the C code uses (an array of `void *`, with pointers modelled as
naturals).  Modelled from the spec: the GNU `obstack` arena (not part of
src) is a bump allocator handing out fresh, pairwise distinct blocks; the
model numbers its blocks consecutively with `obstack_next`. -/
structure sc_mempool where
  elem_size : Nat
  elem_count : Nat
  freed : sc_array Nat
  obstack_next : Nat
deriving Repr, DecidableEq

/-- `sc_mempool_new`: zero live elements, empty free-list, fresh arena.
The free-list stores `void *` values (8 bytes each in the model). -/
def sc_mempool_new (elem_size : Nat) : sc_mempool :=
  { elem_size := elem_size, elem_count := 0,
    freed := sc_array.init 8, obstack_next := 0 }

/-- `sc_mempool_alloc`: increments `elem_count`; pops a recycled pointer
from the free-list if it is non-empty, otherwise obtains a fresh block from
the obstack arena.  Returns the pointer and the new state. -/
def sc_mempool_alloc (m : sc_mempool) : Nat × sc_mempool :=
  if 0 < m.freed.elem_count then
    ((m.freed.elems.getLast?).getD 0,
      { m with elem_count := m.elem_count + 1, freed := (sc_array_pop m.freed).2 })
  else
    (m.obstack_next,
      { m with elem_count := m.elem_count + 1, obstack_next := m.obstack_next + 1 })

/-- `sc_mempool_free`: asserts `elem_count > 0`, decrements it, and pushes
the returned pointer onto the free-list. -/
def sc_mempool_free (m : sc_mempool) (p : Nat) : sc_mempool :=
  { m with elem_count := m.elem_count - 1, freed := sc_array_push m.freed p }

theorem sc_array_push_elems (a : sc_array α) (v : α) :
    (sc_array_push a v).elems = a.elems ++ [v] := by
  unfold sc_array_push
  split <;> rfl

theorem sc_array_push_elem_count_pos (a : sc_array α) (v : α) :
    0 < (sc_array_push a v).elem_count := by
  rw [sc_array.elem_count, sc_array_push_elems]
  simp

/-- One alloc or free call on a mempool. -/
inductive MempoolOp where
  | alloc
  | free (p : Nat)
deriving Repr, DecidableEq

/-- A mempool state paired with the ghost list of live (outstanding,
unfreed) pointers. -/
def MempoolState := sc_mempool × List Nat

/-- Apply one mempool operation, tracking the ghost live list. -/
def applyMempoolOp (s : MempoolState) : MempoolOp → MempoolState
  | .alloc => ((sc_mempool_alloc s.1).2, (sc_mempool_alloc s.1).1 :: s.2)
  | .free p => (sc_mempool_free s.1 p, s.2.erase p)

/-- Run a sequence of mempool operations. -/
def runMempoolOps (s : MempoolState) : List MempoolOp → MempoolState
  | [] => s
  | op :: ops => runMempoolOps (applyMempoolOp s op) ops

/-- Validity: each free passes a currently live pointer. -/
def ValidMempoolOps (s : MempoolState) : List MempoolOp → Bool
  | [] => true
  | .alloc :: ops => ValidMempoolOps (applyMempoolOp s .alloc) ops
  | .free p :: ops =>
    decide (p ∈ s.2) && ValidMempoolOps (applyMempoolOp s (.free p)) ops

theorem sc_mempool_alloc_recycle (m : sc_mempool) (hf : 0 < m.freed.elem_count) :
    sc_mempool_alloc m = ((m.freed.elems.getLast?).getD 0,
      { m with elem_count := m.elem_count + 1,
               freed := { m.freed with elems := m.freed.elems.dropLast } }) := by
  rw [sc_mempool_alloc, if_pos hf]
  rfl

theorem sc_mempool_alloc_fresh (m : sc_mempool) (hf : ¬ 0 < m.freed.elem_count) :
    sc_mempool_alloc m = (m.obstack_next,
      { m with elem_count := m.elem_count + 1,
               obstack_next := m.obstack_next + 1 }) := by
  rw [sc_mempool_alloc, if_neg hf]

/-- The mempool invariant: `elem_count` counts the live pointers, live
pointers are pairwise distinct (no two live allocations share memory), the
free-list holds pairwise distinct pointers disjoint from the live ones, and
every pointer came out of the arena. -/
def MempoolInv (s : MempoolState) : Prop :=
  s.1.elem_count = s.2.length ∧
  s.2.Nodup ∧
  s.1.freed.elems.Nodup ∧
  (∀ p ∈ s.2, p ∉ s.1.freed.elems) ∧
  (∀ p ∈ s.2, p < s.1.obstack_next) ∧
  (∀ p ∈ s.1.freed.elems, p < s.1.obstack_next)

theorem MempoolInv_init (elem_size : Nat) :
    MempoolInv (sc_mempool_new elem_size, []) := by
  refine ⟨rfl, List.nodup_nil, List.nodup_nil, ?_, ?_, ?_⟩ <;>
    simp [sc_mempool_new, sc_array.init]

theorem getLast_not_mem_dropLast (l : List Nat) (hne : l ≠ [])
    (hnd : l.Nodup) : (l.getLast?).getD 0 ∉ l.dropLast := by
  have hsplit : l.dropLast ++ [l.getLast hne] = l := List.dropLast_append_getLast hne
  have hlast : (l.getLast?).getD 0 = l.getLast hne := by
    rw [List.getLast?_eq_getLast l hne]
    rfl
  rw [hlast]
  intro hmem
  rw [← hsplit, List.nodup_append] at hnd
  exact hnd.2.2 hmem (List.mem_singleton_self _)

theorem MempoolInv_step (s : MempoolState) (op : MempoolOp)
    (hinv : MempoolInv s)
    (hvalid : match op with | .alloc => True | .free p => p ∈ s.2) :
    MempoolInv (applyMempoolOp s op) := by
  obtain ⟨m, live⟩ := s
  obtain ⟨hcount, hnodup, hfnodup, hdisj, hlive_lt, hfree_lt⟩ := hinv
  dsimp only at hcount hnodup hfnodup hdisj hlive_lt hfree_lt hvalid
  cases op with
  | alloc =>
    by_cases hf : 0 < m.freed.elem_count
    · have happly : applyMempoolOp (m, live) .alloc =
          ({ m with elem_count := m.elem_count + 1,
                    freed := { m.freed with elems := m.freed.elems.dropLast } },
            ((m.freed.elems.getLast?).getD 0) :: live) := by
        simp [applyMempoolOp, sc_mempool_alloc_recycle m hf]
      rw [happly]
      have hne : m.freed.elems ≠ [] :=
        List.ne_nil_of_length_pos hf
      have hlast_mem : (m.freed.elems.getLast?).getD 0 ∈ m.freed.elems := by
        rw [List.getLast?_eq_getLast _ hne]
        exact List.getLast_mem hne
      have hsub : ∀ q ∈ m.freed.elems.dropLast, q ∈ m.freed.elems :=
        fun q hq => (List.dropLast_sublist _).subset hq
      refine ⟨by simp [hcount, sc_mempool.elem_count], ?_, ?_, ?_, ?_, ?_⟩
      · exact List.nodup_cons.2 ⟨fun hmem => hdisj _ hmem hlast_mem, hnodup⟩
      · exact List.Nodup.sublist (List.dropLast_sublist _) hfnodup
      · intro p hp
        rcases List.mem_cons.1 hp with h | h
        · rw [h]
          exact getLast_not_mem_dropLast _ hne hfnodup
        · exact fun hmem => hdisj _ h (hsub _ hmem)
      · intro p hp
        rcases List.mem_cons.1 hp with h | h
        · rw [h]; exact hfree_lt _ hlast_mem
        · exact hlive_lt _ h
      · intro p hp
        exact hfree_lt _ (hsub _ hp)
    · have happly : applyMempoolOp (m, live) .alloc =
          ({ m with elem_count := m.elem_count + 1,
                    obstack_next := m.obstack_next + 1 },
            m.obstack_next :: live) := by
        simp [applyMempoolOp, sc_mempool_alloc_fresh m hf]
      rw [happly]
      have hfempty : m.freed.elems = [] :=
        List.eq_nil_of_length_eq_zero (by rw [sc_array.elem_count] at hf; omega)
      refine ⟨by simp [hcount], ?_, hfnodup, ?_, ?_, ?_⟩
      · refine List.nodup_cons.2 ⟨fun hmem => ?_, hnodup⟩
        exact absurd (hlive_lt _ hmem) (by omega)
      · intro p _
        rw [hfempty]
        simp
      · intro p hp
        dsimp only
        rcases List.mem_cons.1 hp with h | h
        · omega
        · exact Nat.lt_succ_of_lt (hlive_lt _ h)
      · intro p hp
        exact Nat.lt_succ_of_lt (hfree_lt _ hp)
  | free p =>
    simp only at hvalid
    have happly : applyMempoolOp (m, live) (.free p) =
        ({ m with elem_count := m.elem_count - 1, freed := sc_array_push m.freed p },
          live.erase p) := by
      simp [applyMempoolOp, sc_mempool_free]
    rw [happly]
    have hple : p ∉ m.freed.elems := hdisj _ hvalid
    refine ⟨?_, hnodup.erase p, ?_, ?_, ?_, ?_⟩
    · have hlen : (live.erase p).length = live.length - 1 :=
        List.length_erase_of_mem hvalid
      have hpos : 0 < live.length := List.length_pos_of_mem hvalid
      simp only [sc_mempool.elem_count] at *
      omega
    · rw [sc_array_push_elems]
      refine List.Nodup.append hfnodup (List.nodup_singleton p) ?_
      intro q hq hq'
      exact hple ((List.mem_singleton.1 hq') ▸ hq)
    · intro q hq
      rw [sc_array_push_elems, List.mem_append]
      have hq' := (List.Nodup.mem_erase_iff hnodup).1 hq
      rintro (h | h)
      · exact hdisj _ hq'.2 h
      · rw [List.mem_singleton] at h
        exact hq'.1 h
    · intro q hq
      exact hlive_lt _ ((List.Nodup.mem_erase_iff hnodup).1 hq).2
    · intro q hq
      rw [sc_array_push_elems, List.mem_append] at hq
      rcases hq with h | h
      · exact hfree_lt _ h
      · rw [List.mem_singleton] at h
        rw [h]
        exact hlive_lt _ hvalid

theorem MempoolInv_run (s : MempoolState) (ops : List MempoolOp)
    (hinv : MempoolInv s) (hv : ValidMempoolOps s ops = true) :
    MempoolInv (runMempoolOps s ops) := by
  induction ops generalizing s with
  | nil => exact hinv
  | cons op ops ih =>
    cases op with
    | alloc =>
      rw [ValidMempoolOps] at hv
      exact ih _ (MempoolInv_step s .alloc hinv trivial) hv
    | free p =>
      rw [ValidMempoolOps, Bool.and_eq_true, decide_eq_true_eq] at hv
      exact ih _ (MempoolInv_step s (.free p) hinv hv.1) hv.2

/-- Validity of a sequence is inherited by its prefixes. -/
theorem ValidMempoolOps_prefix (s : MempoolState) (l₁ l₂ : List MempoolOp)
    (hv : ValidMempoolOps s (l₁ ++ l₂) = true) : ValidMempoolOps s l₁ = true := by
  induction l₁ generalizing s with
  | nil => rfl
  | cons op ops ih =>
    cases op with
    | alloc =>
      rw [List.cons_append] at hv
      rw [ValidMempoolOps] at hv ⊢
      exact ih _ hv
    | free p =>
      rw [List.cons_append] at hv
      rw [ValidMempoolOps, Bool.and_eq_true] at hv ⊢
      exact ⟨hv.1, ih _ hv.2⟩

/-- C5: along any valid alloc/free sequence from a fresh mempool (each free
passing a live pointer), at every point `elem_count` equals the number of
outstanding unfreed allocations and the live pointers are pairwise distinct
(no two live allocations share memory); moreover `sc_mempool_alloc` pops
the most recent free-list entry when the free-list is non-empty, hands out
a fresh arena block otherwise, and increments `elem_count`, while
`sc_mempool_free` decrements `elem_count`. -/
theorem sc_mempool_claim (elem_size : Nat) (ops : List MempoolOp)
    (hv : ValidMempoolOps (sc_mempool_new elem_size, []) ops = true) :
    (∀ pre post : List MempoolOp, ops = pre ++ post →
      (runMempoolOps (sc_mempool_new elem_size, []) pre).1.elem_count =
        (runMempoolOps (sc_mempool_new elem_size, []) pre).2.length ∧
      (runMempoolOps (sc_mempool_new elem_size, []) pre).2.Nodup) ∧
    (∀ m : sc_mempool, 0 < m.freed.elem_count →
      (sc_mempool_alloc m).1 = (m.freed.elems.getLast?).getD 0 ∧
      (sc_mempool_alloc m).2.freed.elems = m.freed.elems.dropLast ∧
      (sc_mempool_alloc m).2.elem_count = m.elem_count + 1) ∧
    (∀ m : sc_mempool, m.freed.elem_count = 0 →
      (sc_mempool_alloc m).1 = m.obstack_next ∧
      (sc_mempool_alloc m).2.elem_count = m.elem_count + 1) ∧
    (∀ (m : sc_mempool) (p : Nat),
      (sc_mempool_free m p).elem_count = m.elem_count - 1 ∧
      (sc_mempool_free m p).freed.elems = m.freed.elems ++ [p]) := by
  refine ⟨?_, ?_, ?_, ?_⟩
  · intro pre post hsplit
    subst hsplit
    have hpre := ValidMempoolOps_prefix _ pre post hv
    have h := MempoolInv_run (sc_mempool_new elem_size, []) pre
      (MempoolInv_init elem_size) hpre
    exact ⟨h.1, h.2.1⟩
  · intro m hf
    rw [sc_mempool_alloc_recycle m hf]
    exact ⟨rfl, rfl, rfl⟩
  · intro m hf
    rw [sc_mempool_alloc_fresh m (by omega)]
    exact ⟨rfl, rfl⟩
  · intro m p
    exact ⟨rfl, sc_array_push_elems m.freed p⟩

/-- Witness for C5 at a concrete input: alloc, alloc, free of the first
block, alloc again. -/
theorem sc_mempool_claim_witness :
    ValidMempoolOps (sc_mempool_new 16, [])
      [MempoolOp.alloc, MempoolOp.alloc, MempoolOp.free 0, MempoolOp.alloc] = true ∧
    (∀ pre post : List MempoolOp,
      [MempoolOp.alloc, MempoolOp.alloc, MempoolOp.free 0, MempoolOp.alloc] = pre ++ post →
      (runMempoolOps (sc_mempool_new 16, []) pre).1.elem_count =
        (runMempoolOps (sc_mempool_new 16, []) pre).2.length ∧
      (runMempoolOps (sc_mempool_new 16, []) pre).2.Nodup) := by
  refine ⟨by decide, ?_⟩
  exact (sc_mempool_claim 16
    [MempoolOp.alloc, MempoolOp.alloc, MempoolOp.free 0, MempoolOp.alloc] (by decide)).1

/-- C10: freeing a live pointer `p` and immediately allocating again returns
exactly `p` and restores `elem_count`; the free-list is a LIFO stack: free
appends `p` at the top, the next alloc pops that entry, and the free-list
contents are restored. -/
theorem sc_mempool_free_alloc_lifo (m : sc_mempool) (p : Nat)
    (hpos : 0 < m.elem_count) :
    (sc_mempool_alloc (sc_mempool_free m p)).1 = p ∧
    (sc_mempool_alloc (sc_mempool_free m p)).2.elem_count = m.elem_count ∧
    (sc_mempool_alloc (sc_mempool_free m p)).2.freed.elems = m.freed.elems ∧
    (sc_mempool_free m p).freed.elems = m.freed.elems ++ [p] := by
  have hfelems : (sc_mempool_free m p).freed.elems = m.freed.elems ++ [p] :=
    sc_array_push_elems m.freed p
  have hfcount : 0 < (sc_mempool_free m p).freed.elem_count := by
    rw [sc_array.elem_count, hfelems]
    simp
  rw [sc_mempool_alloc_recycle _ hfcount]
  refine ⟨?_, ?_, ?_, hfelems⟩
  · rw [hfelems]
    simp
  · simp only [sc_mempool_free]
    omega
  · rw [hfelems]
    simp

/-- Witness for C10 at a concrete input: a pool with one live block `5`. -/
theorem sc_mempool_free_alloc_lifo_witness :
    0 < (sc_mempool.mk 16 1 (sc_array.mk 8 [] 0) 6).elem_count ∧
    (sc_mempool_alloc (sc_mempool_free (sc_mempool.mk 16 1 (sc_array.mk 8 [] 0) 6) 5)).1 = 5 ∧
    (sc_mempool_alloc (sc_mempool_free
        (sc_mempool.mk 16 1 (sc_array.mk 8 [] 0) 6) 5)).2.elem_count =
      (sc_mempool.mk 16 1 (sc_array.mk 8 [] 0) 6).elem_count := by
  refine ⟨by decide, ?_, ?_⟩
  · exact (sc_mempool_free_alloc_lifo (sc_mempool.mk 16 1 (sc_array.mk 8 [] 0) 6) 5
      (by decide)).1
  · exact (sc_mempool_free_alloc_lifo (sc_mempool.mk 16 1 (sc_array.mk 8 [] 0) 6) 5
      (by decide)).2.1

/-! ### Recycle array (C9) -/

/-- The sc_recycle_array object: the live-entry count, the backing array
`a` and the free-index stack `f` (an `sc_array` of indices).  Slot contents
are garbage until the caller overwrites them; the model stores `default`
in a fresh slot. -/
structure sc_recycle_array (V : Type) where
  elem_count : Nat
  a : sc_array V
  f : sc_array Nat
deriving Repr, DecidableEq

/-- `sc_recycle_array_init`: empty backing array of `elem_size`-byte
objects and an empty free-index stack (indices are `size_t`, 8 bytes). -/
def sc_recycle_array_init (V : Type) (elem_size : Nat) : sc_recycle_array V :=
  { elem_count := 0, a := sc_array.init elem_size, f := sc_array.init 8 }

/-- Modelled from the spec: `sc_recycle_array_insert` "pops a freed index
if available and returns that slot's address ..., else appends a new slot;
increments `elem_count`".  Returns the slot index (the slot's address)
and the new state. -/
def sc_recycle_array_insert [Inhabited V] (r : sc_recycle_array V) :
    Nat × sc_recycle_array V :=
  if 0 < r.f.elem_count then
    ((r.f.elems.getLast?).getD 0,
      { r with elem_count := r.elem_count + 1, f := (sc_array_pop r.f).2 })
  else
    (r.a.elem_count,
      { r with elem_count := r.elem_count + 1, a := sc_array_push r.a default })

/-- Modelled from the spec: `sc_recycle_array_remove` "pushes `position`
onto the free-index stack; decrements `elem_count`". -/
def sc_recycle_array_remove (r : sc_recycle_array V) (position : Nat) :
    sc_recycle_array V :=
  { r with elem_count := r.elem_count - 1, f := sc_array_push r.f position }

/-- One insert or remove call on a recycle array. -/
inductive RecycleOp where
  | insert
  | remove (p : Nat)
deriving Repr, DecidableEq

/-- A recycle-array state paired with the ghost list of occupied slot
indices. -/
def RecycleState (V : Type) := sc_recycle_array V × List Nat

/-- Apply one recycle-array operation, tracking the occupied slots. -/
def applyRecycleOp [Inhabited V] (s : RecycleState V) : RecycleOp → RecycleState V
  | .insert =>
    ((sc_recycle_array_insert s.1).2, (sc_recycle_array_insert s.1).1 :: s.2)
  | .remove p => (sc_recycle_array_remove s.1 p, s.2.erase p)

/-- Run a sequence of recycle-array operations. -/
def runRecycleOps [Inhabited V] (s : RecycleState V) : List RecycleOp → RecycleState V
  | [] => s
  | op :: ops => runRecycleOps (applyRecycleOp s op) ops

/-- Validity: each remove passes a currently occupied position. -/
def ValidRecycleOps [Inhabited V] (s : RecycleState V) : List RecycleOp → Bool
  | [] => true
  | .insert :: ops => ValidRecycleOps (applyRecycleOp s .insert) ops
  | .remove p :: ops =>
    decide (p ∈ s.2) && ValidRecycleOps (applyRecycleOp s (.remove p)) ops

/-- Number of inserts in an operation sequence. -/
def numInserts (ops : List RecycleOp) : Nat :=
  ops.countP (fun op => match op with | .insert => true | .remove _ => false)

/-- Number of removes in an operation sequence. -/
def numRemoves (ops : List RecycleOp) : Nat :=
  ops.countP (fun op => match op with | .insert => false | .remove _ => true)

theorem numInserts_cons (op : RecycleOp) (ops : List RecycleOp) :
    numInserts (op :: ops) =
      (match op with | .insert => 1 | .remove _ => 0) + numInserts ops := by
  cases op with
  | insert => simp [numInserts, List.countP_cons, Nat.add_comm]
  | remove p => simp [numInserts, List.countP_cons]

theorem numRemoves_cons (op : RecycleOp) (ops : List RecycleOp) :
    numRemoves (op :: ops) =
      (match op with | .insert => 0 | .remove _ => 1) + numRemoves ops := by
  cases op with
  | insert => simp [numRemoves, List.countP_cons]
  | remove p => simp [numRemoves, List.countP_cons, Nat.add_comm]

/-- The recycle-array invariant: `elem_count` counts the occupied slots,
the free indices are pairwise distinct, in range and unoccupied, and the
backing array splits into occupied and free slots. -/
def RecycleInv (s : RecycleState V) : Prop :=
  s.1.elem_count = s.2.length ∧
  s.2.Nodup ∧
  s.1.f.elems.Nodup ∧
  (∀ i ∈ s.2, i < s.1.a.elem_count) ∧
  (∀ i ∈ s.1.f.elems, i < s.1.a.elem_count ∧ i ∉ s.2) ∧
  s.1.a.elem_count = s.2.length + s.1.f.elem_count

theorem RecycleInv_init (V : Type) (elem_size : Nat) :
    RecycleInv ((sc_recycle_array_init V elem_size, []) : RecycleState V) := by
  refine ⟨rfl, List.nodup_nil, List.nodup_nil, ?_, ?_, rfl⟩ <;>
    simp [sc_recycle_array_init, sc_array.init]

theorem RecycleInv_step [Inhabited V] (s : RecycleState V) (op : RecycleOp)
    (hinv : RecycleInv s)
    (hvalid : match op with | .insert => True | .remove p => p ∈ s.2) :
    RecycleInv (applyRecycleOp s op) := by
  obtain ⟨r, occ⟩ := s
  obtain ⟨hcount, hnodup, hfnodup, hocc_lt, hfree, hsplit⟩ := hinv
  dsimp only at hcount hnodup hfnodup hocc_lt hfree hsplit hvalid
  cases op with
  | insert =>
    by_cases hf : 0 < r.f.elem_count
    · have happly : applyRecycleOp (r, occ) .insert =
          ({ r with elem_count := r.elem_count + 1,
                    f := { r.f with elems := r.f.elems.dropLast } },
            ((r.f.elems.getLast?).getD 0) :: occ) := by
        simp [applyRecycleOp, sc_recycle_array_insert, hf, sc_array_pop]
      rw [happly]
      have hne : r.f.elems ≠ [] :=
        List.ne_nil_of_length_pos hf
      have hlast_mem : (r.f.elems.getLast?).getD 0 ∈ r.f.elems := by
        rw [List.getLast?_eq_getLast _ hne]
        exact List.getLast_mem hne
      have hsub : ∀ q ∈ r.f.elems.dropLast, q ∈ r.f.elems :=
        fun q hq => (List.dropLast_sublist _).subset hq
      have hlen_pos : 0 < r.f.elems.length := hf
      have hlen_drop : r.f.elems.dropLast.length = r.f.elems.length - 1 := by
        simp [List.length_dropLast]
      refine ⟨by simp [hcount], ?_, ?_, ?_, ?_, ?_⟩
      · exact List.nodup_cons.2 ⟨fun hmem => (hfree _ hlast_mem).2 hmem, hnodup⟩
      · exact List.Nodup.sublist (List.dropLast_sublist _) hfnodup
      · intro i hi
        rcases List.mem_cons.1 hi with h | h
        · rw [h]; exact (hfree _ hlast_mem).1
        · exact hocc_lt _ h
      · intro i hi
        refine ⟨(hfree _ (hsub _ hi)).1, ?_⟩
        intro hmem
        rcases List.mem_cons.1 hmem with h | h
        · rw [h] at hi
          exact getLast_not_mem_dropLast _ hne hfnodup hi
        · exact (hfree _ (hsub _ hi)).2 h
      · simp only [sc_array.elem_count] at hsplit ⊢
        rw [hlen_drop]
        simp only [List.length_cons]
        omega
    · have hfempty : r.f.elems = [] :=
        List.eq_nil_of_length_eq_zero (by rw [sc_array.elem_count] at hf; omega)
      have happly : applyRecycleOp (r, occ) .insert =
          ({ r with elem_count := r.elem_count + 1, a := sc_array_push r.a default },
            r.a.elem_count :: occ) := by
        simp [applyRecycleOp, sc_recycle_array_insert, hf]
      rw [happly]
      refine ⟨by simp [hcount], ?_, hfnodup, ?_, ?_, ?_⟩
      · refine List.nodup_cons.2 ⟨fun hmem => ?_, hnodup⟩
        exact absurd (hocc_lt _ hmem) (by omega)
      · intro i hi
        dsimp only
        rw [elem_count_push]
        rcases List.mem_cons.1 hi with h | h
        · omega
        · exact Nat.lt_succ_of_lt (hocc_lt _ h)
      · intro i hi
        rw [hfempty] at hi
        exact absurd hi (List.not_mem_nil i)
      · simp only [sc_array.elem_count] at hsplit ⊢
        rw [sc_array_push_elems]
        rw [hfempty] at hsplit ⊢
        simp only [List.length_append, List.length_cons, List.length_nil] at *
        omega
  | remove p =>
    have happly : applyRecycleOp (r, occ) (.remove p) =
        ({ r with elem_count := r.elem_count - 1, f := sc_array_push r.f p },
          occ.erase p) := by
      simp [applyRecycleOp, sc_recycle_array_remove]
    rw [happly]
    have hpf : p ∉ r.f.elems := fun hmem => (hfree _ hmem).2 hvalid
    have hlen : (occ.erase p).length = occ.length - 1 :=
      List.length_erase_of_mem hvalid
    have hpos : 0 < occ.length := List.length_pos_of_mem hvalid
    refine ⟨?_, hnodup.erase p, ?_, ?_, ?_, ?_⟩
    · dsimp only
      omega
    · rw [sc_array_push_elems]
      refine List.Nodup.append hfnodup (List.nodup_singleton p) ?_
      intro q hq hq'
      exact hpf ((List.mem_singleton.1 hq') ▸ hq)
    · intro i hi
      exact hocc_lt _ ((List.Nodup.mem_erase_iff hnodup).1 hi).2
    · intro i hi
      rw [sc_array_push_elems, List.mem_append] at hi
      rcases hi with h | h
      · refine ⟨(hfree _ h).1, fun hmem => ?_⟩
        exact (hfree _ h).2 ((List.Nodup.mem_erase_iff hnodup).1 hmem).2
      · rw [List.mem_singleton] at h
        subst h
        refine ⟨hocc_lt _ hvalid, fun hmem => ?_⟩
        exact ((List.Nodup.mem_erase_iff hnodup).1 hmem).1 rfl
    · simp only [sc_array.elem_count] at hsplit ⊢
      rw [sc_array_push_elems]
      simp only [List.length_append, List.length_singleton]
      omega

/-- Invariant plus call counting along a valid trace. -/
theorem RecycleInv_run [Inhabited V] (s : RecycleState V) (ops : List RecycleOp)
    (hinv : RecycleInv s) (hv : ValidRecycleOps s ops = true) :
    RecycleInv (runRecycleOps s ops) ∧
    (runRecycleOps s ops).1.elem_count + numRemoves ops =
      s.1.elem_count + numInserts ops := by
  induction ops generalizing s with
  | nil => exact ⟨hinv, by simp [runRecycleOps, numInserts, numRemoves]⟩
  | cons op ops ih =>
    cases op with
    | insert =>
      rw [ValidRecycleOps] at hv
      have hstep := RecycleInv_step s .insert hinv trivial
      obtain ⟨hinv', hcnt⟩ := ih _ hstep hv
      refine ⟨hinv', ?_⟩
      have hup : (applyRecycleOp s .insert).1.elem_count = s.1.elem_count + 1 := by
        obtain ⟨r, occ⟩ := s
        by_cases hf : 0 < r.f.elem_count <;>
          simp [applyRecycleOp, sc_recycle_array_insert, hf]
      rw [runRecycleOps, numInserts_cons, numRemoves_cons]
      dsimp only
      rw [hup] at hcnt
      omega
    | remove p =>
      rw [ValidRecycleOps, Bool.and_eq_true, decide_eq_true_eq] at hv
      have hstep := RecycleInv_step s (.remove p) hinv hv.1
      obtain ⟨hinv', hcnt⟩ := ih _ hstep hv.2
      refine ⟨hinv', ?_⟩
      have hpos : 0 < s.1.elem_count := by
        rw [hinv.1]
        exact List.length_pos_of_mem hv.1
      have hup : (applyRecycleOp s (.remove p)).1.elem_count = s.1.elem_count - 1 := by
        obtain ⟨r, occ⟩ := s
        simp [applyRecycleOp, sc_recycle_array_remove]
      rw [runRecycleOps, numInserts_cons, numRemoves_cons]
      dsimp only
      rw [hup] at hcnt
      omega

/-- Validity of a recycle-op sequence is inherited by its prefixes. -/
theorem ValidRecycleOps_prefix [Inhabited V] (s : RecycleState V)
    (l₁ l₂ : List RecycleOp) (hv : ValidRecycleOps s (l₁ ++ l₂) = true) :
    ValidRecycleOps s l₁ = true := by
  induction l₁ generalizing s with
  | nil => rfl
  | cons op ops ih =>
    cases op with
    | insert =>
      rw [List.cons_append] at hv
      rw [ValidRecycleOps] at hv ⊢
      exact ih _ hv
    | remove p =>
      rw [List.cons_append] at hv
      rw [ValidRecycleOps, Bool.and_eq_true] at hv ⊢
      exact ⟨hv.1, ih _ hv.2⟩

/-- C9: along any valid insert/remove sequence from a fresh recycle array
(each remove passing an occupied position), at every point `elem_count`
equals inserts minus removes and equals `a.elem_count - f.elem_count`, the
free indices are pairwise distinct and unoccupied; and an insert
immediately following `remove p` returns the slot at index `p`. -/
theorem sc_recycle_array_claim (V : Type) [Inhabited V] (elem_size : Nat)
    (ops : List RecycleOp)
    (hv : ValidRecycleOps ((sc_recycle_array_init V elem_size, []) : RecycleState V)
      ops = true) :
    (∀ pre post : List RecycleOp, ops = pre ++ post →
      (runRecycleOps ((sc_recycle_array_init V elem_size, []) : RecycleState V)
          pre).1.elem_count + numRemoves pre = numInserts pre ∧
      (runRecycleOps ((sc_recycle_array_init V elem_size, []) : RecycleState V)
          pre).1.elem_count =
        (runRecycleOps ((sc_recycle_array_init V elem_size, []) : RecycleState V)
          pre).1.a.elem_count -
        (runRecycleOps ((sc_recycle_array_init V elem_size, []) : RecycleState V)
          pre).1.f.elem_count ∧
      (runRecycleOps ((sc_recycle_array_init V elem_size, []) : RecycleState V)
          pre).1.f.elems.Nodup ∧
      (∀ i ∈ (runRecycleOps ((sc_recycle_array_init V elem_size, []) : RecycleState V)
          pre).1.f.elems,
        i ∉ (runRecycleOps ((sc_recycle_array_init V elem_size, []) : RecycleState V)
          pre).2)) ∧
    (∀ (r : sc_recycle_array V) (p : Nat),
      (sc_recycle_array_insert (sc_recycle_array_remove r p)).1 = p) := by
  constructor
  · intro pre post hsplit
    subst hsplit
    have hpre := ValidRecycleOps_prefix _ pre post hv
    obtain ⟨⟨hcount, _, hfnodup, _, hfree, harr⟩, hcnt⟩ :=
      RecycleInv_run ((sc_recycle_array_init V elem_size, []) : RecycleState V) pre
        (RecycleInv_init V elem_size) hpre
    refine ⟨?_, ?_, hfnodup, fun i hi => (hfree i hi).2⟩
    · simpa [sc_recycle_array_init] using hcnt
    · rw [hcount]
      omega
  · intro r p
    have hfcount : 0 < (sc_recycle_array_remove r p).f.elem_count := by
      simp only [sc_recycle_array_remove]
      exact sc_array_push_elem_count_pos r.f p
    rw [sc_recycle_array_insert, if_pos hfcount]
    simp [sc_recycle_array_remove, sc_array_push_elems]

/-- Witness for C9 at a concrete input: insert, insert, remove of slot 0,
insert again (which reuses slot 0). -/
theorem sc_recycle_array_claim_witness :
    ValidRecycleOps ((sc_recycle_array_init Nat 4, []) : RecycleState Nat)
      [RecycleOp.insert, RecycleOp.insert, RecycleOp.remove 0, RecycleOp.insert]
      = true ∧
    (∀ (r : sc_recycle_array Nat) (p : Nat),
      (sc_recycle_array_insert (sc_recycle_array_remove r p)).1 = p) := by
  refine ⟨by decide, ?_⟩
  exact (sc_recycle_array_claim Nat 4
    [RecycleOp.insert, RecycleOp.insert, RecycleOp.remove 0, RecycleOp.insert]
    (by decide)).2

/-! ### Hash table (C6, C7) -/

/-- The sc_hash object: the contained-object count, the slot array (each
slot a list of colliding objects, as in the C chained hash), and the
pluggable hash/equality callbacks (with `user_data` already applied in the
model). -/
structure sc_hash (V : Type) where
  elem_count : Nat
  slots : List (List V)
  hash_fn : V → Nat
  equal_fn : V → V → Bool

/-- The slot index of an object: `hash_fn v mod slots.elem_count`. -/
def slotIndex (h : sc_hash V) (v : V) : Nat :=
  h.hash_fn v % h.slots.length

/-- The slot list an object hashes to. -/
def slotOf (h : sc_hash V) (v : V) : List V :=
  h.slots.getD (slotIndex h v) []

/-- Modelled from the spec: `sc_hash_lookup` "computes the slot via
`hash_fn`, linearly scans that slot's list with `equal_fn`". -/
def sc_hash_lookup (h : sc_hash V) (v : V) : Bool :=
  (slotOf h v).any (fun w => h.equal_fn v w)

/-- Modelled from the spec: growing the slot array rehashes "every stored
element into the new slot layout". -/
def hashRehash (h : sc_hash V) (n' : Nat) : sc_hash V :=
  { h with slots := ((List.range n').map
      (fun j => h.slots.flatten.filter (fun v => h.hash_fn v % n' = j))) }

/-- Modelled from the spec: the resize policy tracks the load factor
`elem_count / slot_count` and grows geometrically past an upper threshold.
The exact constants are tuning parameters the spec leaves open; the model
doubles the slot count when the load factor exceeds 2. -/
def sc_hash_maybe_resize (h : sc_hash V) : sc_hash V :=
  if 2 * h.slots.length < h.elem_count then hashRehash h (2 * h.slots.length)
  else h

/-- The raw insertion step: append `v` to its slot list and increment
`elem_count`. -/
def hashInsertRaw (h : sc_hash V) (v : V) : sc_hash V :=
  { h with elem_count := h.elem_count + 1,
           slots := h.slots.set (slotIndex h v) (slotOf h v ++ [v]) }

/-- Modelled from the spec: `sc_hash_insert_unique` "looks up first; if
absent, appends to the slot list, increments `elem_count`, and checks the
resize policy"; returns false ("already contained") otherwise. -/
def sc_hash_insert_unique (h : sc_hash V) (v : V) : Bool × sc_hash V :=
  if sc_hash_lookup h v then (false, h)
  else (true, sc_hash_maybe_resize (hashInsertRaw h v))

/-- The raw removal step: erase the first match from the slot list and
decrement `elem_count`. -/
def hashRemoveRaw (h : sc_hash V) (v : V) : sc_hash V :=
  { h with elem_count := h.elem_count - 1,
           slots := (h.slots.set (slotIndex h v)
             ((slotOf h v).eraseP (fun w => h.equal_fn v w))) }

/-- Modelled from the spec: `sc_hash_remove` "looks up, then unlinks the
matching node from its slot list"; returns whether the object was found. -/
def sc_hash_remove (h : sc_hash V) (v : V) : Bool × sc_hash V :=
  if sc_hash_lookup h v then (true, hashRemoveRaw h v)
  else (false, h)

/-- `sc_hash_new`: empty slot lists.  The C code chooses the initial slot
count dynamically; the model takes it as a parameter (positive in all
theorems). -/
def sc_hash_new (V : Type) (hash_fn : V → Nat) (equal_fn : V → V → Bool)
    (nslots : Nat) : sc_hash V :=
  { elem_count := 0, slots := List.replicate nslots [],
    hash_fn := hash_fn, equal_fn := equal_fn }

/-- Hash states reachable from `sc_hash_new` by insert/remove calls. -/
inductive HashReachable {V : Type} : sc_hash V → Prop where
  | new : ∀ (hash_fn : V → Nat) (equal_fn : V → V → Bool) (nslots : Nat),
      0 < nslots → HashReachable (sc_hash_new V hash_fn equal_fn nslots)
  | insert : ∀ (h : sc_hash V) (v : V), HashReachable h →
      HashReachable (sc_hash_insert_unique h v).2
  | remove : ∀ (h : sc_hash V) (v : V), HashReachable h →
      HashReachable (sc_hash_remove h v).2

/-- The structural hash invariant: a positive slot count, the sum of the
slot-list counts equals `elem_count`, and every stored object sits in the
slot list its hash selects. -/
def HashInv (h : sc_hash V) : Prop :=
  0 < h.slots.length ∧
  h.elem_count = (h.slots.map List.length).sum ∧
  ∀ s, s < h.slots.length → ∀ v ∈ h.slots.getD s [],
    h.hash_fn v % h.slots.length = s

/-! Helper lemmas about list sums and indexed access. -/

theorem getD_set_lt (ls : List (List V)) (i s : Nat) (x : List V)
    (hs : s < ls.length) :
    (ls.set i x).getD s [] = if i = s then x else ls.getD s [] := by
  rw [List.getD_eq_getElem _ _ (by simpa using hs), List.getElem_set]
  split
  · rfl
  · rw [List.getD_eq_getElem _ _ hs]

theorem getD_map_range (g : Nat → List V) (n' s : Nat) (hs : s < n') :
    ((List.range n').map g).getD s [] = g s := by
  rw [List.getD_eq_getElem _ _ (by simpa using hs), List.getElem_map,
    List.getElem_range]

theorem getD_map_length (ls : List (List V)) (i : Nat) (hi : i < ls.length)
    (f : List V → Nat) : (ls.map f).getD i 0 = f (ls.getD i []) := by
  rw [List.getD_eq_getElem _ _ (by simpa using hi), List.getElem_map,
    List.getD_eq_getElem _ _ hi]

theorem map_sum_set (f : List V → Nat) (ls : List (List V)) (i : Nat)
    (x : List V) (hi : i < ls.length) :
    ((ls.set i x).map f).sum + f (ls.getD i []) = (ls.map f).sum + f x := by
  induction ls generalizing i with
  | nil => simp at hi
  | cons l ls ih =>
    cases i with
    | zero => simp [List.set, Nat.add_comm, Nat.add_left_comm]
    | succ i =>
      have hi' : i < ls.length := by simpa using hi
      have := ih i hi'
      simp only [List.set, List.map_cons, List.sum_cons, List.getD_cons_succ]
      omega

theorem sum_map_add {β : Type} (l : List β) (f g : β → Nat) :
    (l.map (fun x => f x + g x)).sum = (l.map f).sum + (l.map g).sum := by
  induction l with
  | nil => simp
  | cons x l ih => simp [ih]; omega

theorem sum_map_ite_eq (n' k : Nat) (hk : k < n') :
    ((List.range n').map (fun j => if k = j then 1 else 0)).sum = 1 := by
  induction n' with
  | zero => omega
  | succ m ih =>
    rw [List.range_succ, List.map_append, List.sum_append]
    by_cases hkm : k < m
    · rw [ih hkm]
      simp only [List.map_cons, List.map_nil, List.sum_cons, List.sum_nil]
      have : k ≠ m := by omega
      simp [this]
    · have hk' : k = m := by omega
      subst hk'
      have hzero : ((List.range k).map (fun j => if k = j then 1 else 0)).sum = 0 := by
        apply List.sum_eq_zero
        intro x hx
        rw [List.mem_map] at hx
        obtain ⟨j, hj, hxj⟩ := hx
        rw [List.mem_range] at hj
        have : k ≠ j := by omega
        simp [this] at hxj
        omega
      rw [hzero]
      simp

theorem sum_filter_mod (n' : Nat) (hn : 0 < n') (f : V → Nat) (l : List V) :
    ((List.range n').map
      (fun j => (l.filter (fun v => f v % n' = j)).length)).sum = l.length := by
  induction l with
  | nil =>
    apply List.sum_eq_zero
    intro x hx
    rw [List.mem_map] at hx
    obtain ⟨j, _, hxj⟩ := hx
    simp at hxj
    omega
  | cons v l ih =>
    have key : ∀ j : Nat,
        ((v :: l).filter (fun w => decide (f w % n' = j))).length =
          (if f v % n' = j then 1 else 0) +
            (l.filter (fun w => decide (f w % n' = j))).length := by
      intro j
      rw [List.filter_cons]
      by_cases hj : f v % n' = j
      · simp [hj, Nat.add_comm]
      · simp [hj]
    calc ((List.range n').map
          (fun j => ((v :: l).filter (fun w => decide (f w % n' = j))).length)).sum
        = ((List.range n').map (fun j => (if f v % n' = j then 1 else 0) +
            (l.filter (fun w => decide (f w % n' = j))).length)).sum := by
          congr 1
          exact List.map_congr_left (fun j _ => key j)
      _ = ((List.range n').map (fun j => if f v % n' = j then 1 else 0)).sum +
            ((List.range n').map
              (fun j => (l.filter (fun w => decide (f w % n' = j))).length)).sum := by
          exact sum_map_add _ _ _
      _ = 1 + l.length := by
          rw [ih, sum_map_ite_eq n' (f v % n') (Nat.mod_lt _ hn)]
      _ = (v :: l).length := by simp [Nat.add_comm]

theorem sum_eq_single (ls : List Nat) (i : Nat) (hi : i < ls.length)
    (hzero : ∀ j, j < ls.length → j ≠ i → ls.getD j 0 = 0) :
    ls.sum = ls.getD i 0 := by
  induction ls generalizing i with
  | nil => simp at hi
  | cons a ls ih =>
    cases i with
    | zero =>
      have : ls.sum = 0 := by
        apply List.sum_eq_zero
        intro x hx
        obtain ⟨n, hn, hxn⟩ := List.getElem_of_mem hx
        have := hzero (n + 1) (by simpa using hn) (by omega)
        rw [List.getD_cons_succ, List.getD_eq_getElem _ _ hn] at this
        omega
      simp [this]
    | succ i =>
      have hi' : i < ls.length := by simpa using hi
      have ha : a = 0 := by
        have := hzero 0 (by simp) (by omega)
        simpa using this
      rw [List.sum_cons, ha, List.getD_cons_succ]
      rw [ih i hi' (fun j hj hji => ?_)]
      · omega
      · have := hzero (j + 1) (by simpa using hj) (by omega)
        simpa using this

/-! Field preservation across hash operations. -/

theorem hashRehash_hash_fn (h : sc_hash V) (n' : Nat) :
    (hashRehash h n').hash_fn = h.hash_fn := rfl

theorem hashRehash_equal_fn (h : sc_hash V) (n' : Nat) :
    (hashRehash h n').equal_fn = h.equal_fn := rfl

theorem maybe_resize_hash_fn (h : sc_hash V) :
    (sc_hash_maybe_resize h).hash_fn = h.hash_fn := by
  unfold sc_hash_maybe_resize
  split <;> rfl

theorem maybe_resize_equal_fn (h : sc_hash V) :
    (sc_hash_maybe_resize h).equal_fn = h.equal_fn := by
  unfold sc_hash_maybe_resize
  split <;> rfl

theorem insert_unique_hash_fn (h : sc_hash V) (v : V) :
    (sc_hash_insert_unique h v).2.hash_fn = h.hash_fn := by
  unfold sc_hash_insert_unique
  split
  · rfl
  · exact maybe_resize_hash_fn _

theorem insert_unique_equal_fn (h : sc_hash V) (v : V) :
    (sc_hash_insert_unique h v).2.equal_fn = h.equal_fn := by
  unfold sc_hash_insert_unique
  split
  · rfl
  · exact maybe_resize_equal_fn _

theorem remove_hash_fn (h : sc_hash V) (v : V) :
    (sc_hash_remove h v).2.hash_fn = h.hash_fn := by
  unfold sc_hash_remove
  split <;> rfl

theorem remove_equal_fn (h : sc_hash V) (v : V) :
    (sc_hash_remove h v).2.equal_fn = h.equal_fn := by
  unfold sc_hash_remove
  split <;> rfl

/-! Preservation of the structural invariant. -/

theorem slotIndex_lt (h : sc_hash V) (v : V) (hlen : 0 < h.slots.length) :
    slotIndex h v < h.slots.length :=
  Nat.mod_lt _ hlen

theorem HashInv_new (V : Type) (hash_fn : V → Nat) (equal_fn : V → V → Bool)
    (nslots : Nat) (hn : 0 < nslots) :
    HashInv (sc_hash_new V hash_fn equal_fn nslots) := by
  refine ⟨by simpa [sc_hash_new] using hn, ?_, ?_⟩
  · simp [sc_hash_new, List.map_replicate, List.sum_replicate]
  · intro s hs v hv
    have hslots : (sc_hash_new V hash_fn equal_fn nslots).slots =
        List.replicate nslots [] := rfl
    rw [hslots] at hv
    rw [List.getD_eq_getElem _ _ (by simpa [sc_hash_new] using hs),
      List.getElem_replicate] at hv
    exact absurd hv (List.not_mem_nil v)

theorem HashInv_insertRaw (h : sc_hash V) (v : V) (hinv : HashInv h) :
    HashInv (hashInsertRaw h v) := by
  obtain ⟨hlen, hcnt, hplace⟩ := hinv
  have hi : slotIndex h v < h.slots.length := slotIndex_lt h v hlen
  have hsum := map_sum_set List.length h.slots (slotIndex h v)
    (slotOf h v ++ [v]) hi
  refine ⟨?_, ?_, ?_⟩
  · simpa [hashInsertRaw] using hlen
  · simp only [hashInsertRaw] at *
    rw [List.length_append] at hsum
    have hslot : h.slots.getD (slotIndex h v) [] = slotOf h v := rfl
    rw [hslot] at hsum
    simp only [List.length_singleton] at hsum
    omega
  · intro s hs w hw
    simp only [hashInsertRaw, List.length_set] at hs hw ⊢
    rw [getD_set_lt _ _ _ _ hs] at hw
    by_cases heq : slotIndex h v = s
    · rw [if_pos heq] at hw
      rcases List.mem_append.1 hw with hmem | hmem
      · exact heq ▸ hplace (slotIndex h v) hi w hmem
      · rw [List.mem_singleton] at hmem
        subst hmem
        rw [← heq]
        rfl
    · rw [if_neg heq] at hw
      exact hplace s hs w hw

theorem HashInv_rehash (h : sc_hash V) (n' : Nat) (hn : 0 < n')
    (hinv : HashInv h) : HashInv (hashRehash h n') := by
  obtain ⟨hlen, hcnt, hplace⟩ := hinv
  have hlen' : (hashRehash h n').slots.length = n' := by
    simp [hashRehash]
  refine ⟨by omega, ?_, ?_⟩
  · have hflat : h.slots.flatten.length = (h.slots.map List.length).sum :=
      List.length_flatten h.slots
    have hpart := sum_filter_mod n' hn h.hash_fn h.slots.flatten
    have hmapped : ((hashRehash h n').slots.map List.length).sum =
        ((List.range n').map (fun j =>
          (h.slots.flatten.filter (fun v => h.hash_fn v % n' = j)).length)).sum := by
      rw [show (hashRehash h n').slots = ((List.range n').map (fun j =>
        h.slots.flatten.filter (fun v => h.hash_fn v % n' = j))) from rfl]
      rw [List.map_map]
      rfl
    have hec : (hashRehash h n').elem_count = h.elem_count := rfl
    rw [hec, hmapped, hpart]
    omega
  · intro s hs w hw
    rw [hlen'] at hs
    simp only [hashRehash] at hw
    rw [getD_map_range _ _ _ hs] at hw
    have := List.of_mem_filter hw
    rw [hlen']
    simpa using this

theorem HashInv_maybe_resize (h : sc_hash V) (hinv : HashInv h) :
    HashInv (sc_hash_maybe_resize h) := by
  unfold sc_hash_maybe_resize
  split
  · exact HashInv_rehash h _ (by have h1 := hinv.1; omega) hinv
  · exact hinv

theorem HashInv_insert (h : sc_hash V) (v : V) (hinv : HashInv h) :
    HashInv (sc_hash_insert_unique h v).2 := by
  unfold sc_hash_insert_unique
  split
  · exact hinv
  · exact HashInv_maybe_resize _ (HashInv_insertRaw h v hinv)

theorem removeRaw_slotIndex (h : sc_hash V) (v u : V) :
    slotIndex (hashRemoveRaw h v) u = slotIndex h u := by
  simp [slotIndex, hashRemoveRaw, List.length_set]

theorem removeRaw_slotOf (h : sc_hash V) (v u : V) (hlen : 0 < h.slots.length) :
    slotOf (hashRemoveRaw h v) u =
      if slotIndex h v = slotIndex h u then
        (slotOf h v).eraseP (fun w => h.equal_fn v w)
      else slotOf h u := by
  have hui : slotIndex h u < h.slots.length := slotIndex_lt h u hlen
  rw [slotOf, removeRaw_slotIndex]
  show (h.slots.set (slotIndex h v) _).getD (slotIndex h u) [] = _
  exact getD_set_lt _ _ _ _ hui

theorem HashInv_removeRaw (h : sc_hash V) (v : V)
    (hfound : sc_hash_lookup h v = true) (hinv : HashInv h) :
    HashInv (hashRemoveRaw h v) := by
  obtain ⟨hlen, hcnt, hplace⟩ := hinv
  have hi : slotIndex h v < h.slots.length := slotIndex_lt h v hlen
  obtain ⟨w, hwmem, hwp⟩ := List.any_eq_true.1 hfound
  have herase : ((slotOf h v).eraseP (fun w => h.equal_fn v w)).length =
      (slotOf h v).length - 1 :=
    List.length_eraseP_of_mem hwmem hwp
  have hslot_pos : 0 < (slotOf h v).length := List.length_pos_of_mem hwmem
  have hsum := map_sum_set List.length h.slots (slotIndex h v)
    ((slotOf h v).eraseP (fun w => h.equal_fn v w)) hi
  have hslot : h.slots.getD (slotIndex h v) [] = slotOf h v := rfl
  rw [hslot, herase] at hsum
  have hslot_le : (slotOf h v).length ≤ (h.slots.map List.length).sum := by
    have hmem : (slotOf h v).length ∈ h.slots.map List.length := by
      rw [List.mem_map]
      refine ⟨slotOf h v, ?_, rfl⟩
      rw [← hslot, List.getD_eq_getElem _ _ hi]
      exact List.getElem_mem _
    exact List.single_le_sum (fun x _ => Nat.zero_le x) _ hmem
  refine ⟨?_, ?_, ?_⟩
  · simpa [hashRemoveRaw, List.length_set] using hlen
  · simp only [hashRemoveRaw] at *
    omega
  · intro s hs w' hw'
    simp only [hashRemoveRaw, List.length_set] at hs hw' ⊢
    rw [getD_set_lt _ _ _ _ hs] at hw'
    by_cases heq : slotIndex h v = s
    · rw [if_pos heq] at hw'
      have hmem : w' ∈ slotOf h v := (List.eraseP_sublist _).subset hw'
      exact heq ▸ hplace (slotIndex h v) hi w' hmem
    · rw [if_neg heq] at hw'
      exact hplace s hs w' hw'

theorem HashInv_remove (h : sc_hash V) (v : V) (hinv : HashInv h) :
    HashInv (sc_hash_remove h v).2 := by
  unfold sc_hash_remove
  split
  · next hfound => exact HashInv_removeRaw h v hfound hinv
  · exact hinv

theorem HashInv_of_reachable (h : sc_hash V) (hr : HashReachable h) :
    HashInv h := by
  induction hr with
  | new hash_fn equal_fn nslots hn => exact HashInv_new V hash_fn equal_fn nslots hn
  | insert h v _ ih => exact HashInv_insert h v ih
  | remove h v _ ih => exact HashInv_remove h v ih

/-- C7: in every reachable hash state (any sequence of insert/remove and the
resizes they trigger, starting from `sc_hash_new`), the sum of the
elem_counts of all slot lists equals the table's `elem_count`, and every
stored element `v` resides in the slot list at index
`hash_fn v mod slots.elem_count`. -/
theorem sc_hash_invariant_claim (V : Type) (h : sc_hash V)
    (hr : HashReachable h) :
    (h.slots.map List.length).sum = h.elem_count ∧
    ∀ s, s < h.slots.length → ∀ v ∈ h.slots.getD s [],
      h.hash_fn v % h.slots.length = s := by
  obtain ⟨_, hcnt, hplace⟩ := HashInv_of_reachable h hr
  exact ⟨hcnt.symm, hplace⟩

/-- Witness for C7 at a concrete input: a table over naturals with identity
hash, after inserting 5 and 13 and removing 5. -/
theorem sc_hash_invariant_claim_witness :
    HashReachable (sc_hash_remove (sc_hash_insert_unique
        (sc_hash_insert_unique (sc_hash_new Nat (fun v => v) (fun a b => a == b) 4)
          5).2 13).2 5).2 ∧
    (((sc_hash_remove (sc_hash_insert_unique (sc_hash_insert_unique
          (sc_hash_new Nat (fun v => v) (fun a b => a == b) 4) 5).2 13).2
            5).2.slots.map List.length).sum =
      (sc_hash_remove (sc_hash_insert_unique (sc_hash_insert_unique
          (sc_hash_new Nat (fun v => v) (fun a b => a == b) 4) 5).2 13).2
            5).2.elem_count) := by
  have hr : HashReachable (sc_hash_remove (sc_hash_insert_unique
      (sc_hash_insert_unique (sc_hash_new Nat (fun v => v) (fun a b => a == b) 4)
        5).2 13).2 5).2 :=
    HashReachable.remove _ 5 (HashReachable.insert _ 13
      (HashReachable.insert _ 5
        (HashReachable.new (fun v => v) (fun a b => a == b) 4 (by omega))))
  exact ⟨hr, (sc_hash_invariant_claim Nat _ hr).1⟩

/-! Equality/hash callback contract and the no-duplicates invariant (C6). -/

/-- The callback contract the C hash table relies on: `equal_fn` is an
equivalence and `hash_fn` is constant on equivalence classes. -/
def HashFuns (h : sc_hash V) : Prop :=
  (∀ w, h.equal_fn w w = true) ∧
  (∀ w1 w2, h.equal_fn w1 w2 = true → h.equal_fn w2 w1 = true) ∧
  (∀ w1 w2 w3, h.equal_fn w1 w2 = true → h.equal_fn w2 w3 = true →
    h.equal_fn w1 w3 = true) ∧
  (∀ w1 w2, h.equal_fn w1 w2 = true → h.hash_fn w1 = h.hash_fn w2)

/-- At most one stored element compares equal to any query, within the
query's slot. -/
def HashUniq (h : sc_hash V) : Prop :=
  ∀ u : V, (slotOf h u).countP (fun w => h.equal_fn u w) ≤ 1

theorem getD_replicate_nil (nslots i : Nat) :
    (List.replicate nslots ([] : List V)).getD i [] = [] := by
  rw [List.getD_eq_getElem?_getD, List.getElem?_replicate]
  split <;> rfl

theorem HU_new (V : Type) (hash_fn : V → Nat) (equal_fn : V → V → Bool)
    (nslots : Nat) : HashUniq (sc_hash_new V hash_fn equal_fn nslots) := by
  intro u
  have : slotOf (sc_hash_new V hash_fn equal_fn nslots) u = [] :=
    getD_replicate_nil _ _
  rw [this]
  simp

theorem insertRaw_slotIndex (h : sc_hash V) (v u : V) :
    slotIndex (hashInsertRaw h v) u = slotIndex h u := by
  simp [slotIndex, hashInsertRaw, List.length_set]

theorem HU_insertRaw (h : sc_hash V) (v : V) (hlen : 0 < h.slots.length)
    (hlookup : sc_hash_lookup h v = false) (hf : HashFuns h)
    (hu : HashUniq h) : HashUniq (hashInsertRaw h v) := by
  obtain ⟨-, hsymm, htrans, -⟩ := hf
  intro u
  have hui : slotIndex h u < h.slots.length := slotIndex_lt h u hlen
  have hslot : slotOf (hashInsertRaw h v) u =
      if slotIndex h v = slotIndex h u then slotOf h v ++ [v]
      else slotOf h u := by
    rw [slotOf, insertRaw_slotIndex]
    show (h.slots.set (slotIndex h v) (slotOf h v ++ [v])).getD (slotIndex h u) [] = _
    exact getD_set_lt _ _ _ _ hui
  have hpred : (hashInsertRaw h v).equal_fn = h.equal_fn := rfl
  rw [hslot, hpred]
  by_cases hidx : slotIndex h v = slotIndex h u
  · rw [if_pos hidx]
    rw [List.countP_append]
    have hnone : ∀ w ∈ slotOf h v, h.equal_fn v w = false :=
      fun w hw => by
        have := List.any_eq_false.1 hlookup w hw
        simpa using this
    by_cases huv : h.equal_fn u v = true
    · have hzero : (slotOf h v).countP (fun w => h.equal_fn u w) = 0 := by
        rw [List.countP_eq_zero]
        intro w hw hue
        have hvu : h.equal_fn v u = true := hsymm _ _ huv
        have hvw : h.equal_fn v w = true := htrans _ _ _ hvu hue
        rw [hnone w hw] at hvw
        exact absurd hvw (by simp)
      rw [hzero]
      simp [List.countP_cons, huv]
    · have hone : ([v].countP (fun w => h.equal_fn u w)) = 0 := by
        rw [List.countP_eq_zero]
        intro w hw
        rw [List.mem_singleton] at hw
        subst hw
        simpa using huv
      rw [hone]
      have : slotOf h u = slotOf h v := by
        rw [slotOf, slotOf, hidx]
      have hcount := hu u
      rw [this] at hcount
      omega
  · rw [if_neg hidx]
    exact hu u

theorem HU_rehash (h : sc_hash V) (n' : Nat) (hn : 0 < n')
    (hinv : HashInv h) (hf : HashFuns h) (hu : HashUniq h) :
    HashUniq (hashRehash h n') := by
  obtain ⟨hlen, -, hplace⟩ := hinv
  obtain ⟨-, hsymm, -, hcompat⟩ := hf
  intro u
  have hlen' : (hashRehash h n').slots.length = n' := by simp [hashRehash]
  have hui' : (hashRehash h n').hash_fn u % n' < n' := Nat.mod_lt _ hn
  have hslot : slotOf (hashRehash h n') u =
      h.slots.flatten.filter (fun w => h.hash_fn w % n' = h.hash_fn u % n') := by
    rw [slotOf, slotIndex, hlen']
    show ((List.range n').map (fun j =>
      h.slots.flatten.filter (fun w => h.hash_fn w % n' = j))).getD
        ((hashRehash h n').hash_fn u % n') [] = _
    rw [getD_map_range _ _ _ hui']
    rfl
  have hpred : (hashRehash h n').equal_fn = h.equal_fn := rfl
  rw [hslot, hpred]
  have hsub : (h.slots.flatten.filter
      (fun w => h.hash_fn w % n' = h.hash_fn u % n')).countP
        (fun w => h.equal_fn u w) ≤
      h.slots.flatten.countP (fun w => h.equal_fn u w) :=
    (List.filter_sublist _).countP_le _
  have hflat : h.slots.flatten.countP (fun w => h.equal_fn u w) =
      (h.slots.map (List.countP (fun w => h.equal_fn u w))).sum :=
    List.countP_flatten _ _
  have hiu : slotIndex h u < h.slots.length := slotIndex_lt h u hlen
  have hzero : ∀ j, j < (h.slots.map
      (List.countP (fun w => h.equal_fn u w))).length → j ≠ slotIndex h u →
      (h.slots.map (List.countP (fun w => h.equal_fn u w))).getD j 0 = 0 := by
    intro j hj hne
    have hj' : j < h.slots.length := by simpa using hj
    rw [getD_map_length _ _ hj']
    rw [List.countP_eq_zero]
    intro w hw hue
    have := hplace j hj' w hw
    have hhash : h.hash_fn u = h.hash_fn w := hcompat _ _ hue
    rw [← hhash] at this
    exact hne (by rw [← this]; rfl)
  have hsingle := sum_eq_single
    (h.slots.map (List.countP (fun w => h.equal_fn u w))) (slotIndex h u)
    (by simpa using hiu) hzero
  rw [getD_map_length _ _ hiu] at hsingle
  have hfinal := hu u
  rw [slotOf] at hfinal
  omega

theorem HU_maybe_resize (h : sc_hash V) (hinv : HashInv h) (hf : HashFuns h)
    (hu : HashUniq h) : HashUniq (sc_hash_maybe_resize h) := by
  unfold sc_hash_maybe_resize
  split
  · exact HU_rehash h _ (by have h1 := hinv.1; omega) hinv hf hu
  · exact hu

theorem HU_insert (h : sc_hash V) (v : V) (hinv : HashInv h)
    (hf : HashFuns h) (hu : HashUniq h) :
    HashUniq (sc_hash_insert_unique h v).2 := by
  unfold sc_hash_insert_unique
  split
  · exact hu
  · next hlookup =>
    have hlookup' : sc_hash_lookup h v = false := by
      simpa using hlookup
    exact HU_maybe_resize _ (HashInv_insertRaw h v hinv) hf
      (HU_insertRaw h v hinv.1 hlookup' hf hu)

theorem HU_remove (h : sc_hash V) (v : V) (hinv : HashInv h)
    (hu : HashUniq h) : HashUniq (sc_hash_remove h v).2 := by
  unfold sc_hash_remove
  split
  · intro u
    have hlen : 0 < h.slots.length := hinv.1
    have hpred : (hashRemoveRaw h v).equal_fn = h.equal_fn := rfl
    rw [show ((true, hashRemoveRaw h v) : Bool × sc_hash V).2 =
      hashRemoveRaw h v from rfl]
    rw [removeRaw_slotOf h v u hlen, hpred]
    by_cases hidx : slotIndex h v = slotIndex h u
    · rw [if_pos hidx]
      have hle : ((slotOf h v).eraseP
          (fun w => h.equal_fn v w)).countP (fun w => h.equal_fn u w) ≤
          (slotOf h v).countP (fun w => h.equal_fn u w) :=
        (List.eraseP_sublist _).countP_le _
      have hequ : slotOf h u = slotOf h v := by rw [slotOf, slotOf, hidx]
      have hcount := hu u
      rw [hequ] at hcount
      exact le_trans hle hcount
    · rw [if_neg hidx]
      exact hu u
  · exact hu

theorem HashFuns_insert (h : sc_hash V) (v : V)
    (hf : HashFuns (sc_hash_insert_unique h v).2) : HashFuns h := by
  unfold HashFuns at hf ⊢
  rw [insert_unique_equal_fn, insert_unique_hash_fn] at hf
  exact hf

theorem HashFuns_remove (h : sc_hash V) (v : V)
    (hf : HashFuns (sc_hash_remove h v).2) : HashFuns h := by
  unfold HashFuns at hf ⊢
  rw [remove_equal_fn, remove_hash_fn] at hf
  exact hf

theorem HashUniq_of_reachable (h : sc_hash V) (hr : HashReachable h)
    (hf : HashFuns h) : HashUniq h := by
  induction hr with
  | new hash_fn equal_fn nslots hn =>
    exact HU_new V hash_fn equal_fn nslots
  | insert h v hr ih =>
    have hfh : HashFuns h := HashFuns_insert h v hf
    exact HU_insert h v (HashInv_of_reachable h hr) hfh (ih hfh)
  | remove h v hr ih =>
    have hfh : HashFuns h := HashFuns_remove h v hf
    exact HU_remove h v (HashInv_of_reachable h hr) (ih hfh)

/-! Lookup helper lemmas. -/

theorem lookup_of_equal_stored (h : sc_hash V) (hinv : HashInv h)
    (hcompat : ∀ w1 w2, h.equal_fn w1 w2 = true → h.hash_fn w1 = h.hash_fn w2)
    (v w : V) (hwflat : w ∈ h.slots.flatten) (hwe : h.equal_fn v w = true) :
    sc_hash_lookup h v = true := by
  obtain ⟨hlen, -, hplace⟩ := hinv
  rw [List.mem_flatten] at hwflat
  obtain ⟨l, hl, hwl⟩ := hwflat
  obtain ⟨s, hs, hsl⟩ := List.getElem_of_mem hl
  have hgetD : h.slots.getD s [] = l := by
    rw [List.getD_eq_getElem _ _ hs, hsl]
  have hws : h.hash_fn w % h.slots.length = s :=
    hplace s hs w (by rw [hgetD]; exact hwl)
  have hvw : h.hash_fn v = h.hash_fn w := hcompat v w hwe
  have hsv : slotIndex h v = s := by
    rw [slotIndex, hvw, hws]
  rw [sc_hash_lookup, List.any_eq_true]
  refine ⟨w, ?_, hwe⟩
  rw [slotOf, hsv, hgetD]
  exact hwl

theorem stored_insertRaw (h : sc_hash V) (v : V) (hlen : 0 < h.slots.length) :
    v ∈ (hashInsertRaw h v).slots.flatten := by
  have hi : slotIndex h v < h.slots.length := slotIndex_lt h v hlen
  rw [List.mem_flatten]
  refine ⟨slotOf h v ++ [v], ?_, by simp⟩
  rw [show (hashInsertRaw h v).slots =
    h.slots.set (slotIndex h v) (slotOf h v ++ [v]) from rfl]
  exact List.mem_set h.slots (slotIndex h v) hi _

theorem stored_rehash (h : sc_hash V) (n' : Nat) (hn : 0 < n') (w : V)
    (hw : w ∈ h.slots.flatten) : w ∈ (hashRehash h n').slots.flatten := by
  rw [List.mem_flatten]
  have hj : h.hash_fn w % n' < n' := Nat.mod_lt _ hn
  refine ⟨h.slots.flatten.filter (fun x => h.hash_fn x % n' = h.hash_fn w % n'),
    ?_, ?_⟩
  · rw [show (hashRehash h n').slots = ((List.range n').map (fun j =>
      h.slots.flatten.filter (fun x => h.hash_fn x % n' = j))) from rfl]
    rw [List.mem_map]
    exact ⟨h.hash_fn w % n', by simp [List.mem_range, hj], rfl⟩
  · rw [List.mem_filter]
    exact ⟨hw, by simp⟩

theorem stored_maybe_resize (h : sc_hash V) (hinv : HashInv h) (w : V)
    (hw : w ∈ h.slots.flatten) : w ∈ (sc_hash_maybe_resize h).slots.flatten := by
  unfold sc_hash_maybe_resize
  split
  · exact stored_rehash h _ (by have h1 := hinv.1; omega) w hw
  · exact hw

/-- C6: on any reachable hash state with a well-behaved equality/hash pair,
inserting an already-contained object is a no-op returning false, a
successfully inserted object is subsequently found by lookup, and after a
successful removal the object is no longer found. -/
theorem sc_hash_claim (V : Type) (h : sc_hash V) (hr : HashReachable h)
    (hf : HashFuns h) (v : V) :
    ((∃ w ∈ h.slots.flatten, h.equal_fn v w = true) →
      sc_hash_insert_unique h v = (false, h)) ∧
    ((sc_hash_insert_unique h v).1 = true →
      sc_hash_lookup (sc_hash_insert_unique h v).2 v = true) ∧
    ((sc_hash_remove h v).1 = true →
      sc_hash_lookup (sc_hash_remove h v).2 v = false) := by
  have hinv : HashInv h := HashInv_of_reachable h hr
  have hu : HashUniq h := HashUniq_of_reachable h hr hf
  obtain ⟨hrefl, hsymm, htrans, hcompat⟩ := hf
  refine ⟨?_, ?_, ?_⟩
  · rintro ⟨w, hwflat, hwe⟩
    have hlk : sc_hash_lookup h v = true :=
      lookup_of_equal_stored h hinv hcompat v w hwflat hwe
    rw [sc_hash_insert_unique, if_pos hlk]
  · intro hsucc
    by_cases hlk : sc_hash_lookup h v = true
    · rw [sc_hash_insert_unique, if_pos hlk] at hsucc ⊢
      simp at hsucc
    · have hlk' : sc_hash_lookup h v = false := by
        simpa using hlk
      rw [sc_hash_insert_unique, if_neg (by rw [hlk']; simp)] at hsucc ⊢
      have hinv' : HashInv (sc_hash_maybe_resize (hashInsertRaw h v)) :=
        HashInv_maybe_resize _ (HashInv_insertRaw h v hinv)
      have hstored : v ∈ (sc_hash_maybe_resize (hashInsertRaw h v)).slots.flatten :=
        stored_maybe_resize _ (HashInv_insertRaw h v hinv) v
          (stored_insertRaw h v hinv.1)
      have hcompat' : ∀ w1 w2,
          (sc_hash_maybe_resize (hashInsertRaw h v)).equal_fn w1 w2 = true →
          (sc_hash_maybe_resize (hashInsertRaw h v)).hash_fn w1 =
            (sc_hash_maybe_resize (hashInsertRaw h v)).hash_fn w2 := by
        rw [maybe_resize_equal_fn, maybe_resize_hash_fn]
        exact hcompat
      have hrefl' : (sc_hash_maybe_resize (hashInsertRaw h v)).equal_fn v v = true := by
        rw [maybe_resize_equal_fn]
        exact hrefl v
      exact lookup_of_equal_stored _ hinv' hcompat' v v hstored hrefl'
  · intro hsucc
    by_cases hlk : sc_hash_lookup h v = true
    · rw [sc_hash_remove, if_pos hlk] at hsucc ⊢
      obtain ⟨w, hwmem, hwp⟩ := List.any_eq_true.1 hlk
      obtain ⟨a, l₁, l₂, hl₁, hpa, hsplit, herase⟩ :=
        List.exists_of_eraseP hwmem hwp
      have hcount := hu v
      have hcsplit : (slotOf h v).countP (fun w => h.equal_fn v w) =
          l₁.countP (fun w => h.equal_fn v w) + 1 +
            l₂.countP (fun w => h.equal_fn v w) := by
        rw [hsplit, List.countP_append, List.countP_cons]
        simp [hpa]
        omega
      have hl₁z : l₁.countP (fun w => h.equal_fn v w) = 0 :=
        List.countP_eq_zero.2 hl₁
      have hl₂z : l₂.countP (fun w => h.equal_fn v w) = 0 := by omega
      have hlen : 0 < h.slots.length := hinv.1
      rw [show ((true, hashRemoveRaw h v) : Bool × sc_hash V).2 =
        hashRemoveRaw h v from rfl]
      have hpred : (hashRemoveRaw h v).equal_fn = h.equal_fn := rfl
      rw [sc_hash_lookup, removeRaw_slotOf h v v hlen, if_pos rfl, hpred, herase]
      rw [List.any_eq_false]
      intro x hx
      rcases List.mem_append.1 hx with hx1 | hx2
      · have := hl₁ x hx1
        simpa using this
      · intro hpx
        have hgt : l₂.countP (fun w => h.equal_fn v w) > 0 :=
          List.countP_pos_iff.2 ⟨x, hx2, by simpa using hpx⟩
        omega
    · rw [sc_hash_remove, if_neg hlk] at hsucc
      simp at hsucc

/-- Witness for C6 at a concrete input: a fresh table over naturals with
identity hash and `==` equality, queried with 5. -/
theorem sc_hash_claim_witness :
    (HashReachable (sc_hash_new Nat (fun v => v) (fun a b => a == b) 4) ∧
      HashFuns (sc_hash_new Nat (fun v => v) (fun a b => a == b) 4)) ∧
    ((∃ w ∈ (sc_hash_new Nat (fun v => v) (fun a b => a == b) 4).slots.flatten,
        (sc_hash_new Nat (fun v => v) (fun a b => a == b) 4).equal_fn 5 w = true) →
      sc_hash_insert_unique (sc_hash_new Nat (fun v => v) (fun a b => a == b) 4) 5 =
        (false, sc_hash_new Nat (fun v => v) (fun a b => a == b) 4)) ∧
    ((sc_hash_insert_unique (sc_hash_new Nat (fun v => v) (fun a b => a == b) 4)
        5).1 = true →
      sc_hash_lookup (sc_hash_insert_unique
        (sc_hash_new Nat (fun v => v) (fun a b => a == b) 4) 5).2 5 = true) ∧
    ((sc_hash_remove (sc_hash_new Nat (fun v => v) (fun a b => a == b) 4)
        5).1 = true →
      sc_hash_lookup (sc_hash_remove
        (sc_hash_new Nat (fun v => v) (fun a b => a == b) 4) 5).2 5 = false) := by
  have hr : HashReachable (sc_hash_new Nat (fun v => v) (fun a b => a == b) 4) :=
    HashReachable.new (fun v => v) (fun a b => a == b) 4 (by omega)
  have hf : HashFuns (sc_hash_new Nat (fun v => v) (fun a b => a == b) 4) := by
    refine ⟨?_, ?_, ?_, ?_⟩
    · intro w
      simp [sc_hash_new]
    · intro w1 w2 h12
      simp [sc_hash_new] at h12 ⊢
      omega
    · intro w1 w2 w3 h12 h23
      simp [sc_hash_new] at h12 h23 ⊢
      omega
    · intro w1 w2 h12
      simp [sc_hash_new] at h12 ⊢
      omega
  exact ⟨⟨hr, hf⟩, sc_hash_claim Nat _ hr hf 5⟩

/-! ### Hash array (C8) -/

/-- The sc_hash_array object: the backing array `a` (insertion-ordered
values) and the index hash `islots` (slot lists of indices into `a`, the
`sc_hash` the C code keeps in `h`), plus the callbacks. -/
structure sc_hash_array (V : Type) where
  a : List V
  islots : List (List Nat)
  hash_fn : V → Nat
  equal_fn : V → V → Bool

/-- Slot index of a value in the index hash. -/
def haSlotIndex (ha : sc_hash_array V) (v : V) : Nat :=
  ha.hash_fn v % ha.islots.length

/-- The index-slot list a value hashes to. -/
def haSlotOf (ha : sc_hash_array V) (v : V) : List Nat :=
  ha.islots.getD (haSlotIndex ha v) []

/-- Modelled from the spec: the hash-array lookup uses `v` as a "transient
needle"; equality dereferences candidate array positions, since the hash
stores indices, not values. -/
def sc_hash_array_lookup [Inhabited V] (ha : sc_hash_array V) (v : V) :
    Option Nat :=
  (haSlotOf ha v).find? (fun i => ha.equal_fn (ha.a.getD i default) v)

/-- Modelled from the spec: rehashing the index hash redistributes every
stored index by the hash of the value it refers to. -/
def haRehash [Inhabited V] (ha : sc_hash_array V) (n' : Nat) : sc_hash_array V :=
  { ha with islots := ((List.range n').map (fun j =>
      ha.islots.flatten.filter
        (fun i => ha.hash_fn (ha.a.getD i default) % n' = j))) }

/-- Modelled from the spec: the index hash follows the same load-factor
resize policy as `sc_hash`. -/
def ha_maybe_resize [Inhabited V] (ha : sc_hash_array V) : sc_hash_array V :=
  if 2 * ha.islots.length < ha.a.length then haRehash ha (2 * ha.islots.length)
  else ha

/-- The raw insertion step: append `v` at the end of the backing array and
register the new index in its slot. -/
def haInsertRaw (ha : sc_hash_array V) (v : V) : sc_hash_array V :=
  { ha with a := ha.a ++ [v],
            islots := (ha.islots.set (haSlotIndex ha v)
              (haSlotOf ha v ++ [ha.a.length])) }

/-- Modelled from the spec: `sc_hash_array_insert_unique` returns "already
present" (NULL) with the existing position when an equal element exists,
without mutating the array; otherwise appends `v`'s bytes to the end of the
backing array, registers the new index in the hash, and returns the new
slot.  The model returns (address, reported position, new state) with the
address `none` standing for NULL. -/
def sc_hash_array_insert_unique [Inhabited V] (ha : sc_hash_array V) (v : V) :
    Option Nat × Nat × sc_hash_array V :=
  match sc_hash_array_lookup ha v with
  | some i => (none, i, ha)
  | none =>
    (some ha.a.length, ha.a.length, ha_maybe_resize (haInsertRaw ha v))

/-- `sc_hash_array_new`: empty backing array and index hash. -/
def sc_hash_array_new (V : Type) (hash_fn : V → Nat) (equal_fn : V → V → Bool)
    (nslots : Nat) : sc_hash_array V :=
  { a := [], islots := List.replicate nslots [],
    hash_fn := hash_fn, equal_fn := equal_fn }

/-- Fold a list of values into a hash array via `insert_unique`. -/
def haInsertList [Inhabited V] (ha : sc_hash_array V) (vs : List V) :
    sc_hash_array V :=
  vs.foldl (fun h v => (sc_hash_array_insert_unique h v).2.2) ha

/-- Hash-array states reachable from `sc_hash_array_new` by inserts. -/
inductive HAReachable {V : Type} [Inhabited V] : sc_hash_array V → Prop where
  | new : ∀ (hash_fn : V → Nat) (equal_fn : V → V → Bool) (nslots : Nat),
      0 < nslots → HAReachable (sc_hash_array_new V hash_fn equal_fn nslots)
  | insert : ∀ (ha : sc_hash_array V) (v : V), HAReachable ha →
      HAReachable (sc_hash_array_insert_unique ha v).2.2

/-- The hash-array invariant: positive slot count; every registered index
is in range and sits in the slot selected by the hash of the value it
refers to; and every array position is registered in its slot. -/
def HAInv [Inhabited V] (ha : sc_hash_array V) : Prop :=
  0 < ha.islots.length ∧
  (∀ s, s < ha.islots.length → ∀ i ∈ ha.islots.getD s [],
    i < ha.a.length ∧
      ha.hash_fn (ha.a.getD i default) % ha.islots.length = s) ∧
  (∀ j, j < ha.a.length →
    j ∈ ha.islots.getD (ha.hash_fn (ha.a.getD j default) % ha.islots.length) [])

theorem getD_append_left (l l' : List V) (d : V) (n : Nat) (hn : n < l.length) :
    (l ++ l').getD n d = l.getD n d := by
  rw [List.getD_eq_getElem _ _ (by rw [List.length_append]; omega),
    List.getD_eq_getElem _ _ hn]
  exact List.getElem_append_left _

theorem getD_append_length (l : List V) (v d : V) :
    (l ++ [v]).getD l.length d = v := by
  rw [List.getD_eq_getElem _ _ (by simp)]
  simp

theorem HAInv_new (V : Type) [Inhabited V] (hash_fn : V → Nat)
    (equal_fn : V → V → Bool) (nslots : Nat) (hn : 0 < nslots) :
    HAInv (sc_hash_array_new V hash_fn equal_fn nslots) := by
  refine ⟨by simpa [sc_hash_array_new] using hn, ?_, ?_⟩
  · intro s hs i hi
    have : (sc_hash_array_new V hash_fn equal_fn nslots).islots.getD s [] = [] := by
      show (List.replicate nslots ([] : List Nat)).getD s [] = []
      rw [List.getD_eq_getElem?_getD, List.getElem?_replicate]
      split <;> rfl
    rw [this] at hi
    exact absurd hi (List.not_mem_nil i)
  · intro j hj
    simp [sc_hash_array_new] at hj

theorem haSlotIndex_lt [Inhabited V] (ha : sc_hash_array V) (v : V)
    (hlen : 0 < ha.islots.length) : haSlotIndex ha v < ha.islots.length :=
  Nat.mod_lt _ hlen

theorem HAInv_insertRaw [Inhabited V] (ha : sc_hash_array V) (v : V)
    (hinv : HAInv ha) : HAInv (haInsertRaw ha v) := by
  obtain ⟨hlen, hplace, hcomplete⟩ := hinv
  have hi : haSlotIndex ha v < ha.islots.length := haSlotIndex_lt ha v hlen
  have hlen' : (haInsertRaw ha v).islots.length = ha.islots.length := by
    simp [haInsertRaw, List.length_set]
  have hderef : ∀ i, i < ha.a.length →
      (haInsertRaw ha v).a.getD i default = ha.a.getD i default := by
    intro i hilen
    show (ha.a ++ [v]).getD i default = _
    exact getD_append_left _ _ _ _ hilen
  have hnew : (haInsertRaw ha v).a.getD ha.a.length default = v := by
    show (ha.a ++ [v]).getD ha.a.length default = v
    exact getD_append_length _ _ _
  have halen : (haInsertRaw ha v).a.length = ha.a.length + 1 := by
    simp [haInsertRaw]
  refine ⟨by omega, ?_, ?_⟩
  · intro s hs i hislot
    rw [hlen'] at hs
    have hslots : (haInsertRaw ha v).islots =
        ha.islots.set (haSlotIndex ha v) (haSlotOf ha v ++ [ha.a.length]) := rfl
    rw [hslots, getD_set_lt _ _ _ _ hs] at hislot
    by_cases heq : haSlotIndex ha v = s
    · rw [if_pos heq] at hislot
      rcases List.mem_append.1 hislot with hmem | hmem
      · obtain ⟨hilen, hiplace⟩ := hplace s (heq ▸ hi) i (heq ▸ hmem)
        rw [halen, hlen', hderef i hilen]
        exact ⟨by omega, hiplace⟩
      · rw [List.mem_singleton] at hmem
        subst hmem
        rw [halen, hlen', hnew]
        exact ⟨by omega, heq ▸ rfl⟩
    · rw [if_neg heq] at hislot
      obtain ⟨hilen, hiplace⟩ := hplace s hs i hislot
      rw [halen, hlen', hderef i hilen]
      exact ⟨by omega, hiplace⟩
  · intro j hj
    rw [halen] at hj
    have hslots : (haInsertRaw ha v).islots =
        ha.islots.set (haSlotIndex ha v) (haSlotOf ha v ++ [ha.a.length]) := rfl
    rw [show (haInsertRaw ha v).hash_fn = ha.hash_fn from rfl]
    rcases Nat.lt_or_ge j ha.a.length with hjlt | hjge
    · rw [hderef j hjlt, hlen']
      have hmem := hcomplete j hjlt
      have hs : ha.hash_fn (ha.a.getD j default) % ha.islots.length <
          ha.islots.length := Nat.mod_lt _ hlen
      rw [hslots, getD_set_lt _ _ _ _ hs]
      by_cases heq : haSlotIndex ha v =
          ha.hash_fn (ha.a.getD j default) % ha.islots.length
      · rw [if_pos heq]
        rw [List.mem_append]
        left
        rw [show haSlotOf ha v = ha.islots.getD (haSlotIndex ha v) [] from rfl, heq]
        exact hmem
      · rw [if_neg heq]
        exact hmem
    · have hj' : j = ha.a.length := by omega
      subst hj'
      rw [hnew, hlen']
      rw [hslots, show ha.hash_fn v % ha.islots.length = haSlotIndex ha v from rfl,
        getD_set_lt _ _ _ _ (haSlotIndex_lt ha v hlen), if_pos rfl]
      simp

theorem HAInv_rehash [Inhabited V] (ha : sc_hash_array V) (n' : Nat)
    (hn : 0 < n') (hinv : HAInv ha) : HAInv (haRehash ha n') := by
  obtain ⟨hlen, hplace, hcomplete⟩ := hinv
  have hlen' : (haRehash ha n').islots.length = n' := by simp [haRehash]
  have hslots : (haRehash ha n').islots = ((List.range n').map (fun j =>
      ha.islots.flatten.filter
        (fun i => ha.hash_fn (ha.a.getD i default) % n' = j))) := rfl
  have hflat_lt : ∀ i ∈ ha.islots.flatten, i < ha.a.length := by
    intro i hi
    rw [List.mem_flatten] at hi
    obtain ⟨l, hl, hil⟩ := hi
    obtain ⟨s, hs, hsl⟩ := List.getElem_of_mem hl
    have : ha.islots.getD s [] = l := by
      rw [List.getD_eq_getElem _ _ hs, hsl]
    exact (hplace s hs i (by rw [this]; exact hil)).1
  refine ⟨by omega, ?_, ?_⟩
  · intro s hs i hislot
    rw [hlen'] at hs
    rw [hslots, getD_map_range _ _ _ hs] at hislot
    rw [List.mem_filter] at hislot
    have haeq : (haRehash ha n').a = ha.a := rfl
    rw [haeq, hlen']
    exact ⟨hflat_lt i hislot.1, by simpa using hislot.2⟩
  · intro j hj
    have haeq : (haRehash ha n').a = ha.a := rfl
    rw [haeq] at hj ⊢
    rw [hlen', show (haRehash ha n').hash_fn = ha.hash_fn from rfl]
    have hs : ha.hash_fn (ha.a.getD j default) % n' < n' := Nat.mod_lt _ hn
    rw [hslots, getD_map_range _ _ _ hs]
    rw [List.mem_filter]
    constructor
    · rw [List.mem_flatten]
      have hmem := hcomplete j hj
      have hs0 : ha.hash_fn (ha.a.getD j default) % ha.islots.length <
          ha.islots.length := Nat.mod_lt _ hlen
      refine ⟨ha.islots.getD
        (ha.hash_fn (ha.a.getD j default) % ha.islots.length) [], ?_, hmem⟩
      rw [List.getD_eq_getElem _ _ hs0]
      exact List.getElem_mem _
    · simp

theorem HAInv_maybe_resize [Inhabited V] (ha : sc_hash_array V)
    (hinv : HAInv ha) : HAInv (ha_maybe_resize ha) := by
  unfold ha_maybe_resize
  split
  · exact HAInv_rehash ha _ (by have h1 := hinv.1; omega) hinv
  · exact hinv

theorem HAInv_insert [Inhabited V] (ha : sc_hash_array V) (v : V)
    (hinv : HAInv ha) : HAInv (sc_hash_array_insert_unique ha v).2.2 := by
  unfold sc_hash_array_insert_unique
  rcases hlk : sc_hash_array_lookup ha v with _ | i
  · exact HAInv_maybe_resize _ (HAInv_insertRaw ha v hinv)
  · exact hinv

theorem HAInv_of_reachable [Inhabited V] (ha : sc_hash_array V)
    (hr : HAReachable ha) : HAInv ha := by
  induction hr with
  | new hash_fn equal_fn nslots hn =>
    exact HAInv_new V hash_fn equal_fn nslots hn
  | insert ha v _ ih => exact HAInv_insert ha v ih

/-- C8: in any reachable hash array, inserting a value with an equal
element already contained returns NULL, reports a position holding an equal
element and leaves the state untouched; inserting an absent value appends
it at the end of the backing array and returns the new index.  Concretely,
inserting `[5, 3, 5, 8, 3]` with identity hash and equality on naturals
yields backing array `[5, 3, 8]` with `elem_count = 3`, and a further
insert of 5 reports already-present without changing the array. -/
theorem sc_hash_array_claim (V : Type) [Inhabited V] (ha : sc_hash_array V)
    (hr : HAReachable ha)
    (hcompat : ∀ w1 w2, ha.equal_fn w1 w2 = true →
      ha.hash_fn w1 = ha.hash_fn w2) (v : V) :
    ((∃ j, j < ha.a.length ∧ ha.equal_fn (ha.a.getD j default) v = true) →
      (sc_hash_array_insert_unique ha v).1 = none ∧
      (sc_hash_array_insert_unique ha v).2.2 = ha ∧
      (sc_hash_array_insert_unique ha v).2.1 < ha.a.length ∧
      ha.equal_fn (ha.a.getD (sc_hash_array_insert_unique ha v).2.1 default) v
        = true) ∧
    ((∀ j, j < ha.a.length → ha.equal_fn (ha.a.getD j default) v = false) →
      (sc_hash_array_insert_unique ha v).1 = some ha.a.length ∧
      (sc_hash_array_insert_unique ha v).2.2.a = ha.a ++ [v]) ∧
    ((haInsertList
        (sc_hash_array_new Nat (fun w => w) (fun x y => x == y) 4)
        [5, 3, 5, 8, 3]).a = [5, 3, 8] ∧
      (haInsertList
        (sc_hash_array_new Nat (fun w => w) (fun x y => x == y) 4)
        [5, 3, 5, 8, 3]).a.length = 3 ∧
      (sc_hash_array_insert_unique (haInsertList
        (sc_hash_array_new Nat (fun w => w) (fun x y => x == y) 4)
        [5, 3, 5, 8, 3]) 5).1 = none ∧
      (sc_hash_array_insert_unique (haInsertList
        (sc_hash_array_new Nat (fun w => w) (fun x y => x == y) 4)
        [5, 3, 5, 8, 3]) 5).2.2.a = [5, 3, 8]) := by
  obtain ⟨hlen, hplace, hcomplete⟩ := HAInv_of_reachable ha hr
  refine ⟨?_, ?_, by decide, by decide, by decide, by decide⟩
  · rintro ⟨j, hj, hjeq⟩
    have hjslot : j ∈ haSlotOf ha v := by
      have hmem := hcomplete j hj
      have : ha.hash_fn (ha.a.getD j default) = ha.hash_fn v := hcompat _ _ hjeq
      rw [this] at hmem
      exact hmem
    have hfind : (sc_hash_array_lookup ha v).isSome := by
      rw [sc_hash_array_lookup, List.find?_isSome]
      exact ⟨j, hjslot, hjeq⟩
    rcases hlk : sc_hash_array_lookup ha v with _ | i
    · rw [hlk] at hfind
      simp at hfind
    · have hlk' : (haSlotOf ha v).find?
          (fun i => ha.equal_fn (ha.a.getD i default) v) = some i := hlk
      have hieq : ha.equal_fn (ha.a.getD i default) v = true := by
        have := List.find?_some hlk'
        simpa using this
      have himem : i ∈ haSlotOf ha v := List.mem_of_find?_eq_some hlk'
      have hilen : i < ha.a.length :=
        (hplace (haSlotIndex ha v) (haSlotIndex_lt ha v hlen) i himem).1
      rw [sc_hash_array_insert_unique, hlk]
      exact ⟨rfl, rfl, hilen, hieq⟩
  · intro habsent
    have hlk : sc_hash_array_lookup ha v = none := by
      rw [sc_hash_array_lookup, List.find?_eq_none]
      intro i hislot
      have hilen : i < ha.a.length :=
        (hplace (haSlotIndex ha v) (haSlotIndex_lt ha v hlen) i hislot).1
      rw [habsent i hilen]
      simp
    rw [sc_hash_array_insert_unique, hlk]
    refine ⟨rfl, ?_⟩
    show (ha_maybe_resize (haInsertRaw ha v)).a = ha.a ++ [v]
    unfold ha_maybe_resize
    split
    · rfl
    · rfl

/-- Witness for C8 at a concrete input: the freshly created hash array over
naturals with identity hash. -/
theorem sc_hash_array_claim_witness :
    (HAReachable (sc_hash_array_new Nat (fun w => w) (fun x y => x == y) 4) ∧
      (∀ w1 w2 : Nat,
        (sc_hash_array_new Nat (fun w => w) (fun x y => x == y) 4).equal_fn
          w1 w2 = true →
        (sc_hash_array_new Nat (fun w => w) (fun x y => x == y) 4).hash_fn w1 =
        (sc_hash_array_new Nat (fun w => w) (fun x y => x == y) 4).hash_fn w2)) ∧
    ((haInsertList (sc_hash_array_new Nat (fun w => w) (fun x y => x == y) 4)
        [5, 3, 5, 8, 3]).a = [5, 3, 8] ∧
      (haInsertList (sc_hash_array_new Nat (fun w => w) (fun x y => x == y) 4)
        [5, 3, 5, 8, 3]).a.length = 3 ∧
      (sc_hash_array_insert_unique (haInsertList
        (sc_hash_array_new Nat (fun w => w) (fun x y => x == y) 4)
        [5, 3, 5, 8, 3]) 5).1 = none ∧
      (sc_hash_array_insert_unique (haInsertList
        (sc_hash_array_new Nat (fun w => w) (fun x y => x == y) 4)
        [5, 3, 5, 8, 3]) 5).2.2.a = [5, 3, 8]) := by
  have hr : HAReachable (sc_hash_array_new Nat (fun w => w) (fun x y => x == y) 4) :=
    HAReachable.new (fun w => w) (fun x y => x == y) 4 (by omega)
  have hcompat : ∀ w1 w2 : Nat,
      (sc_hash_array_new Nat (fun w => w) (fun x y => x == y) 4).equal_fn
        w1 w2 = true →
      (sc_hash_array_new Nat (fun w => w) (fun x y => x == y) 4).hash_fn w1 =
      (sc_hash_array_new Nat (fun w => w) (fun x y => x == y) 4).hash_fn w2 := by
    intro w1 w2 h12
    simp [sc_hash_array_new] at h12 ⊢
    omega
  exact ⟨⟨hr, hcompat⟩,
    (sc_hash_array_claim Nat (sc_hash_array_new Nat (fun w => w)
      (fun x y => x == y) 4) hr hcompat 5).2.2⟩

/-! ### Priority queue (C4) -/

/-- Swap the elements at positions `i` and `j` (the C code swaps through
the `temp` buffer). -/
def lswap [Inhabited α] (l : List α) (i j : Nat) : List α :=
  (l.set i (l.getD j default)).set j (l.getD i default)

theorem length_lswap [Inhabited α] (l : List α) (i j : Nat) :
    (lswap l i j).length = l.length := by
  simp [lswap]

theorem mem_lswap [Inhabited α] (l : List α) (i j : Nat) (hi : i < l.length)
    (hj : j < l.length) (x : α) (hx : x ∈ lswap l i j) : x ∈ l := by
  unfold lswap at hx
  rcases List.mem_or_eq_of_mem_set hx with hx1 | hx1
  · rcases List.mem_or_eq_of_mem_set hx1 with hx2 | hx2
    · exact hx2
    · rw [hx2, List.getD_eq_getElem _ _ hj]
      exact List.getElem_mem _
  · rw [hx1, List.getD_eq_getElem _ _ hi]
    exact List.getElem_mem _

theorem getD_lswap [Inhabited α] (l : List α) (i j k : Nat)
    (hi : i < l.length) (hj : j < l.length) (hk : k < l.length) :
    (lswap l i j).getD k default =
      if j = k then l.getD i default
      else if i = k then l.getD j default
      else l.getD k default := by
  unfold lswap
  rw [List.getD_eq_getElem _ _ (by simp; omega)]
  rw [List.getElem_set]
  by_cases hjk : j = k
  · rw [if_pos hjk, if_pos hjk]
  · rw [if_neg hjk, if_neg hjk, List.getElem_set]
    by_cases hik : i = k
    · rw [if_pos hik, if_pos hik, List.getD_eq_getElem _ _ hj]
    · rw [if_neg hik, if_neg hik, List.getD_eq_getElem _ _ hk]

/-- Modelled from the spec: sift-up for `sc_array_pqueue_add` — while the
parent compares greater than the propagated element, swap the two and walk
up the tree.  Returns the new contents together with the list of swaps
performed (the C function returns their number).  The fuel argument only
bounds the recursion; `c` itself is always enough. -/
def siftUpAux [Inhabited α] (cmp : α → α → Int) :
    Nat → List α → Nat → List α × List (Nat × Nat)
  | _, l, 0 => (l, [])
  | 0, l, _ + 1 => (l, [])
  | fuel + 1, l, c + 1 =>
    if 0 < cmp (l.getD (c / 2) default) (l.getD (c + 1) default) then
      ((siftUpAux cmp fuel (lswap l (c / 2) (c + 1)) (c / 2)).1,
        (c / 2, c + 1) :: (siftUpAux cmp fuel (lswap l (c / 2) (c + 1)) (c / 2)).2)
    else (l, [])

/-- Sift position `c` up. -/
def siftUp [Inhabited α] (cmp : α → α → Int) (l : List α) (c : Nat) :
    List α × List (Nat × Nat) :=
  siftUpAux cmp c l c

theorem siftUpAux_fuel [Inhabited α] (cmp : α → α → Int) :
    ∀ fuel fuel' (l : List α) (c : Nat), c ≤ fuel → c ≤ fuel' →
      siftUpAux cmp fuel l c = siftUpAux cmp fuel' l c := by
  intro fuel
  induction fuel with
  | zero =>
    intro fuel' l c hc hc'
    have hc0 : c = 0 := by omega
    subst hc0
    cases fuel' <;> rfl
  | succ f ih =>
    intro fuel' l c hc hc'
    cases c with
    | zero => cases fuel' <;> rfl
    | succ c =>
      cases fuel' with
      | zero => omega
      | succ f' =>
        show siftUpAux cmp (f + 1) l (c + 1) = siftUpAux cmp (f' + 1) l (c + 1)
        simp only [siftUpAux]
        rw [ih f' (lswap l (c / 2) (c + 1)) (c / 2) (by omega) (by omega)]

theorem siftUp_eq [Inhabited α] (cmp : α → α → Int) (l : List α) (c : Nat) :
    siftUp cmp l c =
      if c = 0 then (l, [])
      else if 0 < cmp (l.getD ((c - 1) / 2) default) (l.getD c default) then
        ((siftUp cmp (lswap l ((c - 1) / 2) c) ((c - 1) / 2)).1,
          ((c - 1) / 2, c) :: (siftUp cmp (lswap l ((c - 1) / 2) c) ((c - 1) / 2)).2)
      else (l, []) := by
  cases c with
  | zero => rfl
  | succ c =>
    rw [if_neg (by omega : ¬ c + 1 = 0)]
    show siftUpAux cmp (c + 1) l (c + 1) = _
    simp only [siftUpAux]
    rw [show (c + 1 - 1) / 2 = c / 2 from rfl]
    rw [show siftUp cmp (lswap l (c / 2) (c + 1)) (c / 2) =
      siftUpAux cmp (c / 2) (lswap l (c / 2) (c + 1)) (c / 2) from rfl]
    rw [siftUpAux_fuel cmp c (c / 2) (lswap l (c / 2) (c + 1)) (c / 2)
      (by omega) (le_refl _)]

/-- The smaller of the (at most two) children of `p`, as the pop loop picks
it: the right child when it exists and compares less than the left. -/
def pickChild [Inhabited α] (cmp : α → α → Int) (l : List α) (p : Nat) : Nat :=
  if 2 * p + 2 < l.length ∧
      cmp (l.getD (2 * p + 2) default) (l.getD (2 * p + 1) default) < 0 then
    2 * p + 2
  else 2 * p + 1

theorem pickChild_gt [Inhabited α] (cmp : α → α → Int) (l : List α) (p : Nat) :
    p < pickChild cmp l p := by
  unfold pickChild
  split <;> omega

theorem pickChild_lt_len [Inhabited α] (cmp : α → α → Int) (l : List α)
    (p : Nat) (h1 : 2 * p + 1 < l.length) : pickChild cmp l p < l.length := by
  unfold pickChild
  split
  · next h => exact h.1
  · exact h1

theorem pickChild_parent [Inhabited α] (cmp : α → α → Int) (l : List α)
    (p : Nat) : (pickChild cmp l p - 1) / 2 = p := by
  unfold pickChild
  split <;> omega

/-- Modelled from the spec: sift-down for `sc_array_pqueue_pop` — while the
smaller child compares less than the parent, swap the two and walk down the
tree.  Returns the new contents together with the list of swaps performed.
The fuel argument only bounds the recursion; `l.length - p` is always
enough. -/
def siftDownAux [Inhabited α] (cmp : α → α → Int) :
    Nat → List α → Nat → List α × List (Nat × Nat)
  | 0, l, _ => (l, [])
  | fuel + 1, l, p =>
    if 2 * p + 1 < l.length then
      if cmp (l.getD (pickChild cmp l p) default) (l.getD p default) < 0 then
        ((siftDownAux cmp fuel (lswap l p (pickChild cmp l p))
            (pickChild cmp l p)).1,
          (p, pickChild cmp l p) ::
            (siftDownAux cmp fuel (lswap l p (pickChild cmp l p))
              (pickChild cmp l p)).2)
      else (l, [])
    else (l, [])

/-- Sift position `p` down. -/
def siftDown [Inhabited α] (cmp : α → α → Int) (l : List α) (p : Nat) :
    List α × List (Nat × Nat) :=
  siftDownAux cmp (l.length - p) l p

theorem siftDownAux_fuel [Inhabited α] (cmp : α → α → Int) :
    ∀ fuel fuel' (l : List α) (p : Nat), l.length - p ≤ fuel →
      l.length - p ≤ fuel' → siftDownAux cmp fuel l p = siftDownAux cmp fuel' l p := by
  intro fuel
  induction fuel with
  | zero =>
    intro fuel' l p hf hf'
    have hnp : ¬ 2 * p + 1 < l.length := by omega
    cases fuel' with
    | zero => rfl
    | succ f' =>
      show (l, []) = siftDownAux cmp (f' + 1) l p
      simp only [siftDownAux]
      rw [if_neg hnp]
  | succ f ih =>
    intro fuel' l p hf hf'
    cases fuel' with
    | zero =>
      have hnp : ¬ 2 * p + 1 < l.length := by omega
      show siftDownAux cmp (f + 1) l p = (l, [])
      simp only [siftDownAux]
      rw [if_neg hnp]
    | succ f' =>
      show siftDownAux cmp (f + 1) l p = siftDownAux cmp (f' + 1) l p
      simp only [siftDownAux]
      by_cases h1 : 2 * p + 1 < l.length
      · rw [if_pos h1, if_pos h1]
        by_cases h2 : cmp (l.getD (pickChild cmp l p) default)
            (l.getD p default) < 0
        · rw [if_pos h2, if_pos h2]
          have hgt := pickChild_gt cmp l p
          rw [ih f' (lswap l p (pickChild cmp l p)) (pickChild cmp l p)
            (by rw [length_lswap]; omega) (by rw [length_lswap]; omega)]
        · rw [if_neg h2, if_neg h2]
      · rw [if_neg h1, if_neg h1]

theorem siftDown_eq [Inhabited α] (cmp : α → α → Int) (l : List α) (p : Nat) :
    siftDown cmp l p =
      if 2 * p + 1 < l.length then
        if cmp (l.getD (pickChild cmp l p) default) (l.getD p default) < 0 then
          ((siftDown cmp (lswap l p (pickChild cmp l p)) (pickChild cmp l p)).1,
            (p, pickChild cmp l p) ::
              (siftDown cmp (lswap l p (pickChild cmp l p)) (pickChild cmp l p)).2)
        else (l, [])
      else (l, []) := by
  show siftDownAux cmp (l.length - p) l p = _
  by_cases h1 : 2 * p + 1 < l.length
  · have hgt := pickChild_gt cmp l p
    have hlt := pickChild_lt_len cmp l p h1
    have hfuel : l.length - p = (l.length - p - 1) + 1 := by omega
    rw [hfuel]
    simp only [siftDownAux]
    rw [if_pos h1, if_pos h1]
    by_cases h2 : cmp (l.getD (pickChild cmp l p) default) (l.getD p default) < 0
    · rw [if_pos h2, if_pos h2]
      rw [show siftDown cmp (lswap l p (pickChild cmp l p)) (pickChild cmp l p) =
        siftDownAux cmp ((lswap l p (pickChild cmp l p)).length - pickChild cmp l p)
          (lswap l p (pickChild cmp l p)) (pickChild cmp l p) from rfl]
      rw [siftDownAux_fuel cmp (l.length - p - 1)
        ((lswap l p (pickChild cmp l p)).length - pickChild cmp l p)
        (lswap l p (pickChild cmp l p)) (pickChild cmp l p)
        (by rw [length_lswap]; omega) (le_refl _)]
    · rw [if_neg h2, if_neg h2]
  · rw [if_neg h1]
    have hstop : ∀ fuel, siftDownAux cmp fuel l p = (l, []) := by
      intro fuel
      cases fuel with
      | zero => rfl
      | succ m =>
        simp only [siftDownAux]
        rw [if_neg h1]
    exact hstop _

/-- `sc_array_pqueue_add` (modelled from the spec and the header contract):
assumes elements `[0] .. [elem_count-2]` form a valid heap and that the
caller has pushed the new element last; propagates `[elem_count-1]` upward
by swapping and returns the number of swap operations. -/
def sc_array_pqueue_add [Inhabited α] (cmp : α → α → Int) (a : sc_array α) :
    sc_array α × Nat :=
  ({ a with elems := (siftUp cmp a.elems (a.elem_count - 1)).1 },
    (siftUp cmp a.elems (a.elem_count - 1)).2.length)

/-- `sc_array_pqueue_pop` (modelled from the spec): extracts the minimum
`[0]`, moves the last element to the root, resizes to `elem_count - 1`,
sifts the root downward, and returns the number of swap operations. -/
def sc_array_pqueue_pop [Inhabited α] (cmp : α → α → Int) (a : sc_array α) :
    α × sc_array α × Nat :=
  (a.elems.getD 0 default,
    { a with elems := (siftDown cmp
        ((a.elems.set 0 (a.elems.getD (a.elem_count - 1) default)).dropLast)
        0).1 },
    (siftDown cmp
      ((a.elems.set 0 (a.elems.getD (a.elem_count - 1) default)).dropLast)
      0).2.length)

/-- Push a value then heap-add it, as the caller of the C pqueue does. -/
def pqueuePushAdd [Inhabited α] (cmp : α → α → Int) (a : sc_array α) (v : α) :
    sc_array α × Nat :=
  sc_array_pqueue_add cmp (sc_array_push a v)

/-- Build a heap by pushing and adding each value in turn; also returns the
swap count of every add. -/
def pqueueBuildFrom [Inhabited α] (cmp : α → α → Int) (a : sc_array α) :
    List α → sc_array α × List Nat
  | [] => (a, [])
  | v :: vs =>
    ((pqueueBuildFrom cmp (pqueuePushAdd cmp a v).1 vs).1,
      (pqueuePushAdd cmp a v).2 :: (pqueueBuildFrom cmp (pqueuePushAdd cmp a v).1 vs).2)

/-- The array state after `k` pops. -/
def popIter [Inhabited α] (cmp : α → α → Int) (a : sc_array α) : Nat → sc_array α
  | 0 => a
  | k + 1 => (sc_array_pqueue_pop cmp (popIter cmp a k)).2.1

/-- Pop all elements (with an explicit fuel for termination). -/
def popAllFuel [Inhabited α] (cmp : α → α → Int) (a : sc_array α) :
    Nat → List α
  | 0 => []
  | fuel + 1 =>
    if a.elem_count = 0 then []
    else
      (sc_array_pqueue_pop cmp a).1 ::
        popAllFuel cmp (sc_array_pqueue_pop cmp a).2.1 fuel

/-- Pop repeatedly until the queue is empty, collecting the results. -/
def popAll [Inhabited α] (cmp : α → α → Int) (a : sc_array α) : List α :=
  popAllFuel cmp a a.elem_count

/-- The binary-heap property in ascending order: no child is less than its
parent. -/
def IsHeap (cmp : α → α → Int) [Inhabited α] (l : List α) : Prop :=
  ∀ c, 0 < c → c < l.length →
    cmp (l.getD ((c - 1) / 2) default) (l.getD c default) ≤ 0

/-- Invariant during sift-up: the heap property holds everywhere except
possibly on the edge into position `c`, and the would-be grandparent of `c`
already bounds `c`'s children. -/
def UpInv (cmp : α → α → Int) [Inhabited α] (l : List α) (c : Nat) : Prop :=
  (∀ j, 0 < j → j < l.length → j ≠ c →
    cmp (l.getD ((j - 1) / 2) default) (l.getD j default) ≤ 0) ∧
  (∀ j, 0 < j → j < l.length → (j - 1) / 2 = c → 0 < c →
    cmp (l.getD ((c - 1) / 2) default) (l.getD j default) ≤ 0)

theorem siftUp_spec [Inhabited α] (cmp : α → α → Int) (hc : IsThreeWayCmp cmp) :
    ∀ c l, c < l.length → UpInv cmp l c →
    IsHeap cmp (siftUp cmp l c).1 ∧
    (siftUp cmp l c).1.length = l.length ∧
    (∀ x ∈ (siftUp cmp l c).1, x ∈ l) := by
  intro c
  induction c using Nat.strong_induction_on with
  | _ c ih =>
    intro l hcl hinv
    obtain ⟨h1, h2⟩ := hinv
    rw [siftUp_eq]
    by_cases hc0 : c = 0
    · rw [if_pos hc0]
      subst hc0
      refine ⟨?_, rfl, fun x hx => hx⟩
      intro j hj0 hjl
      exact h1 j hj0 hjl (by omega)
    · rw [if_neg hc0]
      by_cases hswap : 0 < cmp (l.getD ((c - 1) / 2) default) (l.getD c default)
      · rw [if_pos hswap]
        show IsHeap cmp (siftUp cmp (lswap l ((c - 1) / 2) c) ((c - 1) / 2)).1 ∧
          (siftUp cmp (lswap l ((c - 1) / 2) c) ((c - 1) / 2)).1.length = l.length ∧
          (∀ x ∈ (siftUp cmp (lswap l ((c - 1) / 2) c) ((c - 1) / 2)).1, x ∈ l)
        have hplt : (c - 1) / 2 < c := by omega
        have hpl : (c - 1) / 2 < l.length := by omega
        have hlen : (lswap l ((c - 1) / 2) c).length = l.length :=
          length_lswap l ((c - 1) / 2) c
        have hgd : ∀ k, k < l.length →
            (lswap l ((c - 1) / 2) c).getD k default =
            if c = k then l.getD ((c - 1) / 2) default
            else if (c - 1) / 2 = k then l.getD c default
            else l.getD k default :=
          fun k hk => getD_lswap l ((c - 1) / 2) c k hpl hcl hk
        have hvc : (lswap l ((c - 1) / 2) c).getD c default =
            l.getD ((c - 1) / 2) default := by
          rw [hgd c hcl, if_pos rfl]
        have hvp : (lswap l ((c - 1) / 2) c).getD ((c - 1) / 2) default =
            l.getD c default := by
          rw [hgd ((c - 1) / 2) hpl, if_neg (by omega), if_pos rfl]
        have hvother : ∀ k, k < l.length → k ≠ c → k ≠ (c - 1) / 2 →
            (lswap l ((c - 1) / 2) c).getD k default = l.getD k default := by
          intro k hk hkc hkp
          rw [hgd k hk, if_neg (fun hh => hkc hh.symm),
            if_neg (fun hh => hkp hh.symm)]
        have hcp : cmp (l.getD c default) (l.getD ((c - 1) / 2) default) ≤ 0 := by
          have := hc.lt_iff_gt (l.getD c default) (l.getD ((c - 1) / 2) default)
          omega
        have hinv' : UpInv cmp (lswap l ((c - 1) / 2) c) ((c - 1) / 2) := by
          constructor
          · intro j hj0 hjl hjp
            rw [hlen] at hjl
            have hparl : (j - 1) / 2 < l.length := by omega
            by_cases hjc : j = c
            · subst hjc
              rw [hvc, hvp]
              exact hcp
            · rw [hvother j hjl hjc hjp]
              by_cases hparc : (j - 1) / 2 = c
              · rw [hparc, hvc]
                exact h2 j hj0 hjl hparc (by omega)
              · by_cases hparp : (j - 1) / 2 = (c - 1) / 2
                · rw [hparp, hvp]
                  have hj1 := h1 j hj0 hjl hjc
                  rw [hparp] at hj1
                  exact hc.le_trans _ _ _ hcp hj1
                · rw [hvother ((j - 1) / 2) hparl hparc hparp]
                  exact h1 j hj0 hjl hjc
          · intro j hj0 hjl hpar hppos
            rw [hlen] at hjl
            have hppl : ((c - 1) / 2 - 1) / 2 < l.length := by omega
            rw [hvother (((c - 1) / 2 - 1) / 2) hppl (by omega) (by omega)]
            have hpp := h1 ((c - 1) / 2) hppos hpl (by omega)
            by_cases hjc : j = c
            · subst hjc
              rw [hvc]
              exact hpp
            · have hjnp : j ≠ (c - 1) / 2 := by omega
              rw [hvother j hjl hjc hjnp]
              have hj1 := h1 j hj0 hjl hjc
              rw [hpar] at hj1
              exact hc.le_trans _ _ _ hpp hj1
        have hrec := ih ((c - 1) / 2) hplt (lswap l ((c - 1) / 2) c)
          (by omega) hinv'
        refine ⟨hrec.1, ?_, ?_⟩
        · rw [hrec.2.1, hlen]
        · intro x hx
          exact mem_lswap l ((c - 1) / 2) c hpl hcl x (hrec.2.2 x hx)
      · rw [if_neg hswap]
        refine ⟨?_, rfl, fun x hx => hx⟩
        intro j hj0 hjl
        show cmp (l.getD ((j - 1) / 2) default) (l.getD j default) ≤ 0
        by_cases hjc : j = c
        · subst hjc
          omega
        · exact h1 j hj0 (by simpa using hjl) hjc

theorem siftUp_trace [Inhabited α] (cmp : α → α → Int) :
    ∀ c l, (siftUp cmp l c).1 =
      (siftUp cmp l c).2.foldl (fun l' (pr : Nat × Nat) => lswap l' pr.1 pr.2) l := by
  intro c
  induction c using Nat.strong_induction_on with
  | _ c ih =>
    intro l
    rw [siftUp_eq]
    by_cases hc0 : c = 0
    · rw [if_pos hc0]
      rfl
    · rw [if_neg hc0]
      by_cases hswap : 0 < cmp (l.getD ((c - 1) / 2) default) (l.getD c default)
      · rw [if_pos hswap]
        show (siftUp cmp (lswap l ((c - 1) / 2) c) ((c - 1) / 2)).1 =
          List.foldl (fun l' (pr : Nat × Nat) => lswap l' pr.1 pr.2) l
            (((c - 1) / 2, c) :: (siftUp cmp (lswap l ((c - 1) / 2) c) ((c - 1) / 2)).2)
        rw [List.foldl_cons]
        exact ih ((c - 1) / 2) (by omega) (lswap l ((c - 1) / 2) c)
      · rw [if_neg hswap]
        rfl

theorem siftUp_zero_swaps [Inhabited α] (cmp : α → α → Int) (l : List α)
    (c : Nat) (h0 : (siftUp cmp l c).2.length = 0) : (siftUp cmp l c).1 = l := by
  have htr := siftUp_trace cmp c l
  rw [List.length_eq_zero] at h0
  rw [h0] at htr
  simpa using htr

/-- The picked child is no greater than either existing child. -/
theorem pickChild_le [Inhabited α] (cmp : α → α → Int) (hc : IsThreeWayCmp cmp)
    (l : List α) (p : Nat) :
    cmp (l.getD (pickChild cmp l p) default) (l.getD (2 * p + 1) default) ≤ 0 ∧
    (2 * p + 2 < l.length →
      cmp (l.getD (pickChild cmp l p) default) (l.getD (2 * p + 2) default) ≤ 0) := by
  unfold pickChild
  split
  · next h =>
    refine ⟨le_of_lt h.2, fun _ => ?_⟩
    rw [hc.refl]
  · next h =>
    refine ⟨by rw [hc.refl], fun h2 => ?_⟩
    have hnot : ¬ cmp (l.getD (2 * p + 2) default) (l.getD (2 * p + 1) default) < 0 := by
      intro hlt
      exact h ⟨h2, hlt⟩
    have := hc.lt_iff_gt (l.getD (2 * p + 2) default) (l.getD (2 * p + 1) default)
    omega

/-- Invariant during sift-down: the heap property holds on every edge not
leaving position `p`, and `p`'s parent already bounds `p`'s children. -/
def DownInv (cmp : α → α → Int) [Inhabited α] (l : List α) (p : Nat) : Prop :=
  (∀ j, 0 < j → j < l.length → (j - 1) / 2 ≠ p →
    cmp (l.getD ((j - 1) / 2) default) (l.getD j default) ≤ 0) ∧
  (0 < p → ∀ j, j < l.length → (j - 1) / 2 = p →
    cmp (l.getD ((p - 1) / 2) default) (l.getD j default) ≤ 0)

/-- Swapping the parent with its smaller child pushes the sift-down
invariant one level deeper. -/
theorem DownInv_swap [Inhabited α] (cmp : α → α → Int) (hc : IsThreeWayCmp cmp)
    (l : List α) (p c : Nat) (hpl : p < l.length) (hclen : c < l.length)
    (hcgt : p < c) (hcpar : (c - 1) / 2 = p)
    (hle1 : cmp (l.getD c default) (l.getD (2 * p + 1) default) ≤ 0)
    (hle2 : 2 * p + 2 < l.length →
      cmp (l.getD c default) (l.getD (2 * p + 2) default) ≤ 0)
    (hsw : cmp (l.getD c default) (l.getD p default) < 0)
    (hinv : DownInv cmp l p) : DownInv cmp (lswap l p c) c := by
  obtain ⟨h1, h2⟩ := hinv
  have hlen : (lswap l p c).length = l.length := length_lswap l p c
  have hgd : ∀ k, k < l.length → (lswap l p c).getD k default =
      if c = k then l.getD p default
      else if p = k then l.getD c default
      else l.getD k default :=
    fun k hk => getD_lswap l p c k hpl hclen hk
  have hvc : (lswap l p c).getD c default = l.getD p default := by
    rw [hgd c hclen, if_pos rfl]
  have hvp : (lswap l p c).getD p default = l.getD c default := by
    rw [hgd p hpl, if_neg (by omega), if_pos rfl]
  have hvother : ∀ k, k < l.length → k ≠ p → k ≠ c →
      (lswap l p c).getD k default = l.getD k default := by
    intro k hk hkp hkc
    rw [hgd k hk, if_neg (fun hh => hkc hh.symm), if_neg (fun hh => hkp hh.symm)]
  constructor
  · intro j hj0 hjl hjpar
    rw [hlen] at hjl
    by_cases hjc : j = c
    · subst hjc
      rw [hcpar, hvp, hvc]
      exact le_of_lt hsw
    · by_cases hjp : j = p
      · subst hjp
        have hppl : (j - 1) / 2 < l.length := by omega
        have h2c := h2 hj0 c hclen hcpar
        rw [hvp, hvother ((j - 1) / 2) hppl (by omega) (by omega)]
        exact h2c
      · by_cases hpar_p : (j - 1) / 2 = p
        · have hj12 : j = 2 * p + 1 ∨ j = 2 * p + 2 := by omega
          rw [hvother j hjl hjp hjc, hpar_p, hvp]
          rcases hj12 with h | h
          · rw [h]
            exact hle1
          · rw [h]
            exact hle2 (by omega)
        · have hparl : (j - 1) / 2 < l.length := by omega
          rw [hvother j hjl hjp hjc, hvother ((j - 1) / 2) hparl hpar_p hjpar]
          exact h1 j hj0 hjl hpar_p
  · intro _ j hjl hjpar
    rw [hlen] at hjl
    have hj0 : 0 < j := by omega
    have hjgt : c < j := by omega
    rw [hcpar, hvp, hvother j hjl (by omega) (by omega)]
    have hj1 := h1 j hj0 hjl (by omega)
    rw [hjpar] at hj1
    exact hj1

theorem siftDown_spec [Inhabited α] (cmp : α → α → Int) (hc : IsThreeWayCmp cmp) :
    ∀ n p l, l.length - p ≤ n → DownInv cmp l p →
    IsHeap cmp (siftDown cmp l p).1 ∧
    (siftDown cmp l p).1.length = l.length ∧
    (∀ x ∈ (siftDown cmp l p).1, x ∈ l) := by
  intro n
  induction n with
  | zero =>
    intro p l hn hinv
    obtain ⟨h1, h2⟩ := hinv
    have hnp : ¬ 2 * p + 1 < l.length := by omega
    rw [siftDown_eq, if_neg hnp]
    refine ⟨?_, rfl, fun x hx => hx⟩
    intro j hj0 hjl
    have hjl' : j < l.length := by simpa using hjl
    show cmp (l.getD ((j - 1) / 2) default) (l.getD j default) ≤ 0
    exact h1 j hj0 hjl' (by omega)
  | succ n ih =>
    intro p l hn hinv
    obtain ⟨h1, h2⟩ := hinv
    rw [siftDown_eq]
    by_cases hch : 2 * p + 1 < l.length
    · rw [if_pos hch]
      have hclen : pickChild cmp l p < l.length := pickChild_lt_len cmp l p hch
      have hcgt : p < pickChild cmp l p := pickChild_gt cmp l p
      have hcpar : (pickChild cmp l p - 1) / 2 = p := pickChild_parent cmp l p
      have hpl : p < l.length := by omega
      have hple := pickChild_le cmp hc l p
      by_cases hsw : cmp (l.getD (pickChild cmp l p) default) (l.getD p default) < 0
      · rw [if_pos hsw]
        show IsHeap cmp
            (siftDown cmp (lswap l p (pickChild cmp l p)) (pickChild cmp l p)).1 ∧
          (siftDown cmp (lswap l p (pickChild cmp l p))
            (pickChild cmp l p)).1.length = l.length ∧
          (∀ x ∈ (siftDown cmp (lswap l p (pickChild cmp l p))
            (pickChild cmp l p)).1, x ∈ l)
        have hlen : (lswap l p (pickChild cmp l p)).length = l.length :=
          length_lswap l p (pickChild cmp l p)
        have hinv' : DownInv cmp (lswap l p (pickChild cmp l p))
            (pickChild cmp l p) :=
          DownInv_swap cmp hc l p (pickChild cmp l p) hpl hclen hcgt hcpar
            hple.1 hple.2 hsw ⟨h1, h2⟩
        have hrec := ih (pickChild cmp l p) (lswap l p (pickChild cmp l p))
          (by rw [hlen]; omega) hinv'
        refine ⟨hrec.1, ?_, ?_⟩
        · rw [hrec.2.1, hlen]
        · intro x hx
          exact mem_lswap l p (pickChild cmp l p) hpl hclen x (hrec.2.2 x hx)
      · rw [if_neg hsw]
        refine ⟨?_, rfl, fun x hx => hx⟩
        intro j hj0 hjl
        show cmp (l.getD ((j - 1) / 2) default) (l.getD j default) ≤ 0
        have hjl' : j < l.length := by simpa using hjl
        by_cases hpar_p : (j - 1) / 2 = p
        · have hj12 : j = 2 * p + 1 ∨ j = 2 * p + 2 := by omega
          have hflip : cmp (l.getD p default)
              (l.getD (pickChild cmp l p) default) ≤ 0 := by
            have := hc.lt_iff_gt (l.getD (pickChild cmp l p) default)
              (l.getD p default)
            omega
          rw [hpar_p]
          rcases hj12 with h | h
          · rw [h]
            exact hc.le_trans _ _ _ hflip hple.1
          · rw [h]
            exact hc.le_trans _ _ _ hflip (hple.2 (by omega))
        · exact h1 j hj0 hjl' hpar_p
    · rw [if_neg hch]
      refine ⟨?_, rfl, fun x hx => hx⟩
      intro j hj0 hjl
      have hjl' : j < l.length := by simpa using hjl
      show cmp (l.getD ((j - 1) / 2) default) (l.getD j default) ≤ 0
      exact h1 j hj0 hjl' (by omega)

theorem siftDown_trace [Inhabited α] (cmp : α → α → Int) :
    ∀ n p l, l.length - p ≤ n → (siftDown cmp l p).1 =
      (siftDown cmp l p).2.foldl (fun l' (pr : Nat × Nat) => lswap l' pr.1 pr.2) l := by
  intro n
  induction n with
  | zero =>
    intro p l hn
    have hnp : ¬ 2 * p + 1 < l.length := by omega
    rw [siftDown_eq, if_neg hnp]
    rfl
  | succ n ih =>
    intro p l hn
    rw [siftDown_eq]
    by_cases hch : 2 * p + 1 < l.length
    · rw [if_pos hch]
      have hclen : pickChild cmp l p < l.length := pickChild_lt_len cmp l p hch
      have hcgt : p < pickChild cmp l p := pickChild_gt cmp l p
      by_cases hsw : cmp (l.getD (pickChild cmp l p) default) (l.getD p default) < 0
      · rw [if_pos hsw]
        show (siftDown cmp (lswap l p (pickChild cmp l p)) (pickChild cmp l p)).1 =
          List.foldl (fun l' (pr : Nat × Nat) => lswap l' pr.1 pr.2) l
            ((p, pickChild cmp l p) ::
              (siftDown cmp (lswap l p (pickChild cmp l p)) (pickChild cmp l p)).2)
        rw [List.foldl_cons]
        exact ih (pickChild cmp l p) (lswap l p (pickChild cmp l p))
          (by rw [length_lswap]; omega)
      · rw [if_neg hsw]
        rfl
    · rw [if_neg hch]
      rfl

/-- In a heap, the root is a minimum. -/
theorem heap_root_le [Inhabited α] (cmp : α → α → Int) (hc : IsThreeWayCmp cmp)
    (l : List α) (hheap : IsHeap cmp l) :
    ∀ j, j < l.length → cmp (l.getD 0 default) (l.getD j default) ≤ 0 := by
  intro j
  induction j using Nat.strong_induction_on with
  | _ j ih =>
    intro hjl
    by_cases hj0 : j = 0
    · subst hj0
      rw [hc.refl]
    · have hpar := hheap j (by omega) hjl
      have hih := ih ((j - 1) / 2) (by omega) (by omega)
      exact hc.le_trans _ _ _ hih hpar

theorem heap_root_le_mem [Inhabited α] (cmp : α → α → Int)
    (hc : IsThreeWayCmp cmp) (l : List α) (hheap : IsHeap cmp l) (y : α)
    (hy : y ∈ l) : cmp (l.getD 0 default) y ≤ 0 := by
  obtain ⟨j, hjl, hjy⟩ := List.getElem_of_mem hy
  have := heap_root_le cmp hc l hheap j hjl
  rw [List.getD_eq_getElem _ _ hjl, hjy] at this
  exact this

/-- `sc_array_pqueue_add` on an array whose prefix (all but the last element)
is a valid heap: the result is a heap, the count is unchanged, elements only
get rearranged, and a zero swap count means the contents were untouched. -/
theorem pqueue_add_spec [Inhabited α] (cmp : α → α → Int) (hc : IsThreeWayCmp cmp)
    (a : sc_array α) (hpre : IsHeap cmp a.elems.dropLast) :
    IsHeap cmp (sc_array_pqueue_add cmp a).1.elems ∧
    (sc_array_pqueue_add cmp a).1.elem_count = a.elem_count ∧
    (∀ x ∈ (sc_array_pqueue_add cmp a).1.elems, x ∈ a.elems) ∧
    ((sc_array_pqueue_add cmp a).2 = 0 →
      (sc_array_pqueue_add cmp a).1.elems = a.elems) := by
  by_cases hn : a.elem_count = 0
  · have hnil : a.elems = [] := by
      rw [sc_array.elem_count] at hn
      exact List.eq_nil_of_length_eq_zero hn
    rw [sc_array_pqueue_add, hn, hnil]
    refine ⟨?_, ?_, ?_, ?_⟩
    · intro j hj0 hjl
      simp [siftUp, siftUpAux] at hjl
    · simp [sc_array.elem_count, hnil, hn, siftUp, siftUpAux]
    · intro x hx
      simp [siftUp, siftUpAux] at hx
    · intro _
      simp [siftUp, siftUpAux]
  · have hnpos : 0 < a.elems.length := by
      rw [sc_array.elem_count] at hn
      omega
    have hcl : a.elem_count - 1 < a.elems.length := by
      rw [sc_array.elem_count]
      omega
    have hinv : UpInv cmp a.elems (a.elem_count - 1) := by
      constructor
      · intro j hj0 hjl hjc
        have hjlast : j < a.elems.length - 1 := by
          rw [sc_array.elem_count] at hjc
          omega
        have hdl : ∀ k, k < a.elems.length - 1 →
            a.elems.dropLast.getD k default = a.elems.getD k default := by
          intro k hk
          rw [List.getD_eq_getElem _ _ (by rw [List.length_dropLast]; omega),
            List.getElem_dropLast, List.getD_eq_getElem _ _ (by omega)]
        have := hpre j hj0 (by rw [List.length_dropLast]; omega)
        rw [hdl j hjlast, hdl ((j - 1) / 2) (by omega)] at this
        exact this
      · intro j hj0 hjl hpar hcpos
        rw [sc_array.elem_count] at hpar
        omega
    have hspec := siftUp_spec cmp hc (a.elem_count - 1) a.elems hcl hinv
    refine ⟨hspec.1, ?_, hspec.2.2, ?_⟩
    · show (siftUp cmp a.elems (a.elem_count - 1)).1.length = a.elem_count
      rw [hspec.2.1, sc_array.elem_count]
    · intro h0
      exact siftUp_zero_swaps cmp a.elems (a.elem_count - 1) h0

/-- `sc_array_pqueue_pop` on a heap: returns the root (the minimum),
preserves the heap property, decrements the count by one, and only returns
elements that were in the array. -/
theorem pqueue_pop_spec [Inhabited α] (cmp : α → α → Int) (hc : IsThreeWayCmp cmp)
    (a : sc_array α) (hheap : IsHeap cmp a.elems) :
    (sc_array_pqueue_pop cmp a).1 = a.elems.getD 0 default ∧
    IsHeap cmp (sc_array_pqueue_pop cmp a).2.1.elems ∧
    (sc_array_pqueue_pop cmp a).2.1.elem_count = a.elem_count - 1 ∧
    (∀ x ∈ (sc_array_pqueue_pop cmp a).2.1.elems, x ∈ a.elems) := by
  have hl1len : ((a.elems.set 0
      (a.elems.getD (a.elem_count - 1) default)).dropLast).length =
      a.elems.length - 1 := by
    rw [List.length_dropLast, List.length_set]
  have hl1get : ∀ k, 0 < k → k < a.elems.length - 1 →
      ((a.elems.set 0 (a.elems.getD (a.elem_count - 1) default)).dropLast).getD
        k default = a.elems.getD k default := by
    intro k hk0 hk
    rw [List.getD_eq_getElem _ _ (by omega), List.getElem_dropLast,
      List.getElem_set, if_neg (by omega)]
    exact (List.getD_eq_getElem _ _ (by omega)).symm
  have hinv : DownInv cmp
      ((a.elems.set 0 (a.elems.getD (a.elem_count - 1) default)).dropLast) 0 := by
    constructor
    · intro j hj0 hjl hjpar
      rw [hl1len] at hjl
      have hpar0 : 0 < (j - 1) / 2 := by omega
      rw [hl1get j hj0 hjl, hl1get ((j - 1) / 2) hpar0 (by omega)]
      exact hheap j hj0 (by omega)
    · intro hfalse
      omega
  have hspec := siftDown_spec cmp hc
      ((a.elems.set 0 (a.elems.getD (a.elem_count - 1) default)).dropLast).length
      0 _ (by omega) hinv
  refine ⟨rfl, hspec.1, ?_, ?_⟩
  · show (siftDown cmp _ 0).1.length = a.elem_count - 1
    rw [hspec.2.1, hl1len, sc_array.elem_count]
  · intro x hx
    have hx1 := hspec.2.2 x hx
    have hx2 := List.mem_of_mem_dropLast hx1
    rcases List.mem_or_eq_of_mem_set hx2 with h | h
    · exact h
    · by_cases hlen : 0 < a.elems.length
      · rw [h, List.getD_eq_getElem _ _ (by rw [sc_array.elem_count]; omega)]
        exact List.getElem_mem _
      · exfalso
        have hnil : a.elems = [] := List.eq_nil_of_length_eq_zero (by omega)
        rw [hnil] at hx2
        simp at hx2

/-- Push-then-add on a heap: the result is a heap one element larger, and a
zero swap count means the value was appended untouched. -/
theorem pushAdd_spec [Inhabited α] (cmp : α → α → Int) (hc : IsThreeWayCmp cmp)
    (a : sc_array α) (v : α) (hheap : IsHeap cmp a.elems) :
    IsHeap cmp (pqueuePushAdd cmp a v).1.elems ∧
    (pqueuePushAdd cmp a v).1.elem_count = a.elem_count + 1 ∧
    ((pqueuePushAdd cmp a v).2 = 0 →
      (pqueuePushAdd cmp a v).1.elems = a.elems ++ [v]) := by
  have hpush : (sc_array_push a v).elems = a.elems ++ [v] :=
    sc_array_push_elems a v
  have hpre : IsHeap cmp (sc_array_push a v).elems.dropLast := by
    rw [hpush, List.dropLast_concat]
    exact hheap
  have hspec := pqueue_add_spec cmp hc (sc_array_push a v) hpre
  refine ⟨hspec.1, ?_, ?_⟩
  · rw [pqueuePushAdd, hspec.2.1, elem_count_push]
  · intro h0
    rw [pqueuePushAdd, hspec.2.2.2 h0, hpush]

/-- Building a pqueue value by value: heap after every add, one slot per
value, and zero swaps everywhere means the input order was kept. -/
theorem buildFrom_spec [Inhabited α] (cmp : α → α → Int) (hc : IsThreeWayCmp cmp) :
    ∀ (vs : List α) (a : sc_array α), IsHeap cmp a.elems →
    IsHeap cmp (pqueueBuildFrom cmp a vs).1.elems ∧
    (pqueueBuildFrom cmp a vs).1.elem_count = a.elem_count + vs.length ∧
    ((∀ sw ∈ (pqueueBuildFrom cmp a vs).2, sw = 0) →
      (pqueueBuildFrom cmp a vs).1.elems = a.elems ++ vs) := by
  intro vs
  induction vs with
  | nil =>
    intro a hheap
    exact ⟨hheap, by simp [pqueueBuildFrom], by intro _; simp [pqueueBuildFrom]⟩
  | cons v vs ih =>
    intro a hheap
    have hpa := pushAdd_spec cmp hc a v hheap
    have hih := ih (pqueuePushAdd cmp a v).1 hpa.1
    refine ⟨hih.1, ?_, ?_⟩
    · show (pqueueBuildFrom cmp (pqueuePushAdd cmp a v).1 vs).1.elem_count = _
      rw [hih.2.1, hpa.2.1]
      simp [Nat.add_comm, Nat.add_assoc, Nat.add_left_comm]
    · intro hall
      have hhead : (pqueuePushAdd cmp a v).2 = 0 :=
        hall _ (by simp [pqueueBuildFrom])
      have hrest : ∀ sw ∈ (pqueueBuildFrom cmp (pqueuePushAdd cmp a v).1 vs).2,
          sw = 0 := by
        intro sw hsw
        exact hall sw (by simp [pqueueBuildFrom, hsw])
      show (pqueueBuildFrom cmp (pqueuePushAdd cmp a v).1 vs).1.elems = _
      rw [hih.2.2 hrest, hpa.2.2 hhead]
      simp

/-- Popping everything from a heap yields a non-decreasing sequence whose
elements all come from the array, one per stored element. -/
theorem popAllFuel_spec [Inhabited α] (cmp : α → α → Int) (hc : IsThreeWayCmp cmp) :
    ∀ (fuel : Nat) (a : sc_array α), IsHeap cmp a.elems →
    List.Chain' (fun x y => cmp x y ≤ 0) (popAllFuel cmp a fuel) ∧
    (∀ x ∈ popAllFuel cmp a fuel, x ∈ a.elems) ∧
    (popAllFuel cmp a fuel).length = min fuel a.elem_count := by
  intro fuel
  induction fuel with
  | zero =>
    intro a _
    exact ⟨by simp [popAllFuel], by simp [popAllFuel], by simp [popAllFuel]⟩
  | succ fuel ih =>
    intro a hheap
    by_cases hcnt : a.elem_count = 0
    · rw [popAllFuel, if_pos hcnt]
      exact ⟨by simp, by simp, by simp [hcnt]⟩
    · rw [popAllFuel, if_neg hcnt]
      have hpop := pqueue_pop_spec cmp hc a hheap
      have hih := ih (sc_array_pqueue_pop cmp a).2.1 hpop.2.1
      have hroot_mem : (sc_array_pqueue_pop cmp a).1 ∈ a.elems := by
        rw [hpop.1, List.getD_eq_getElem _ _ (by rw [sc_array.elem_count] at hcnt; omega)]
        exact List.getElem_mem _
      refine ⟨?_, ?_, ?_⟩
      · rw [List.chain'_cons']
        refine ⟨?_, hih.1⟩
        intro y hy
        have hy1 : y ∈ popAllFuel cmp (sc_array_pqueue_pop cmp a).2.1 fuel :=
          List.mem_of_mem_head? hy
        have hy2 : y ∈ a.elems := hpop.2.2.2 y (hih.2.1 y hy1)
        rw [hpop.1]
        exact heap_root_le_mem cmp hc a.elems hheap y hy2
      · intro x hx
        rcases List.mem_cons.1 hx with h | h
        · rw [h]
          exact hroot_mem
        · exact hpop.2.2.2 x (hih.2.1 x h)
      · rw [List.length_cons, hih.2.2, hpop.2.2.1]
        omega

/-- The state after `k` pops: still a heap, with `k` fewer elements. -/
theorem popIter_spec [Inhabited α] (cmp : α → α → Int) (hc : IsThreeWayCmp cmp)
    (a : sc_array α) (hheap : IsHeap cmp a.elems) :
    ∀ k, IsHeap cmp (popIter cmp a k).elems ∧
      (popIter cmp a k).elem_count = a.elem_count - k := by
  intro k
  induction k with
  | zero => exact ⟨hheap, rfl⟩
  | succ k ihk =>
    have hpop := pqueue_pop_spec cmp hc (popIter cmp a k) ihk.1
    refine ⟨hpop.2.1, ?_⟩
    show (sc_array_pqueue_pop cmp (popIter cmp a k)).2.1.elem_count = _
    rw [hpop.2.2.1, ihk.2]
    omega

theorem init_heap [Inhabited α] (cmp : α → α → Int) (es : Nat) :
    IsHeap cmp (sc_array.init es : sc_array α).elems := by
  intro c hc0 hcl
  simp [sc_array.init] at hcl

/-- C4 (amended): building a pqueue from an empty array by push/`pqueue_add`
and then popping repeatedly: the heap property holds after every add and
every pop, each pop decreases `elem_count` by exactly one, the popped
elements come out in non-decreasing order (one per stored element), each
call returns the number of swap operations it performed (replaying the
returned swaps reproduces the resulting contents), and if every add
returned zero swaps then the array is unchanged — though not necessarily
sorted. -/
theorem sc_array_pqueue_claim [Inhabited α] (cmp : α → α → Int)
    (hc : IsThreeWayCmp cmp) (es : Nat) (vs : List α) :
    (∀ k : Nat, IsHeap cmp
      (pqueueBuildFrom cmp (sc_array.init es) (vs.take k)).1.elems) ∧
    (pqueueBuildFrom cmp (sc_array.init es) vs).1.elem_count = vs.length ∧
    (∀ k : Nat, IsHeap cmp
      (popIter cmp (pqueueBuildFrom cmp (sc_array.init es) vs).1 k).elems) ∧
    (∀ k : Nat, k < vs.length →
      0 < (popIter cmp (pqueueBuildFrom cmp (sc_array.init es) vs).1 k).elem_count ∧
      (popIter cmp (pqueueBuildFrom cmp (sc_array.init es) vs).1 (k + 1)).elem_count =
        (popIter cmp (pqueueBuildFrom cmp (sc_array.init es) vs).1 k).elem_count - 1) ∧
    List.Chain' (fun x y => cmp x y ≤ 0)
      (popAll cmp (pqueueBuildFrom cmp (sc_array.init es) vs).1) ∧
    (popAll cmp (pqueueBuildFrom cmp (sc_array.init es) vs).1).length = vs.length ∧
    (∀ (l : List α) (c : Nat),
      (siftUp cmp l c).1 =
        (siftUp cmp l c).2.foldl (fun l' (pr : Nat × Nat) => lswap l' pr.1 pr.2) l) ∧
    (∀ (l : List α) (p : Nat),
      (siftDown cmp l p).1 =
        (siftDown cmp l p).2.foldl (fun l' (pr : Nat × Nat) => lswap l' pr.1 pr.2) l) ∧
    ((∀ sw ∈ (pqueueBuildFrom cmp (sc_array.init es) vs).2, sw = 0) →
      (pqueueBuildFrom cmp (sc_array.init es) vs).1.elems = vs) := by
  have hinit := init_heap (α := α) cmp es
  have hbuild := buildFrom_spec cmp hc vs (sc_array.init es) hinit
  have hcount : (pqueueBuildFrom cmp (sc_array.init es) vs).1.elem_count =
      vs.length := by
    rw [hbuild.2.1]
    simp [sc_array.init, sc_array.elem_count]
  refine ⟨?_, hcount, ?_, ?_, ?_, ?_, ?_, ?_, ?_⟩
  · intro k
    exact (buildFrom_spec cmp hc (vs.take k) (sc_array.init es) hinit).1
  · intro k
    exact (popIter_spec cmp hc _ hbuild.1 k).1
  · intro k hk
    have h0 := (popIter_spec cmp hc _ hbuild.1 k).2
    have h1 := (popIter_spec cmp hc _ hbuild.1 (k + 1)).2
    rw [hcount] at h0 h1
    constructor
    · omega
    · omega
  · exact (popAllFuel_spec cmp hc _ _ hbuild.1).1
  · have := (popAllFuel_spec cmp hc
      (pqueueBuildFrom cmp (sc_array.init es) vs).1.elem_count
      (pqueueBuildFrom cmp (sc_array.init es) vs).1 hbuild.1).2.2
    rw [popAll, this, hcount]
    omega
  · intro l c
    exact siftUp_trace cmp c l
  · intro l p
    exact siftDown_trace cmp l.length p l (by omega)
  · intro hall
    have := hbuild.2.2 hall
    rw [this]
    rfl

/-- Counterexample to C4 as stated: building up `[1, 3, 2]` performs zero
swaps in every `pqueue_add`, yet the resulting array `[1, 3, 2]` is not
sorted — the header's note that zero swaps across a build-up implies a
sorted array does not hold of the sift-up algorithm it documents. -/
theorem sc_array_pqueue_claim_counterexample :
    (∀ sw ∈ (pqueueBuildFrom intCmp (sc_array.init 8 : sc_array Int)
      [1, 3, 2]).2, sw = 0) ∧
    (pqueueBuildFrom intCmp (sc_array.init 8 : sc_array Int) [1, 3, 2]).1.elems =
      [1, 3, 2] ∧
    ¬ (∀ i : Nat, ∀ h : i + 1 <
        (pqueueBuildFrom intCmp (sc_array.init 8 : sc_array Int) [1, 3, 2]).1.elems.length,
      intCmp ((pqueueBuildFrom intCmp (sc_array.init 8 : sc_array Int)
          [1, 3, 2]).1.elems.get ⟨i, Nat.lt_of_succ_lt h⟩)
        ((pqueueBuildFrom intCmp (sc_array.init 8 : sc_array Int)
          [1, 3, 2]).1.elems.get ⟨i + 1, h⟩) ≤ 0) := by
  refine ⟨by decide, by decide, ?_⟩
  intro hall
  exact absurd (hall 1 (by decide)) (by decide)

/-- Witness for C4 at a concrete input: popping the heap built from `[2, 1]`
yields a non-decreasing sequence of length two. -/
theorem sc_array_pqueue_claim_witness :
    IsThreeWayCmp intCmp ∧
    (List.Chain' (fun x y => intCmp x y ≤ 0)
      (popAll intCmp (pqueueBuildFrom intCmp
        (sc_array.init 8 : sc_array Int) [2, 1]).1) ∧
    (popAll intCmp (pqueueBuildFrom intCmp
      (sc_array.init 8 : sc_array Int) [2, 1]).1).length = ([2, 1] : List Int).length) :=
  ⟨intCmp_valid,
    (sc_array_pqueue_claim intCmp intCmp_valid 8 [2, 1]).2.2.2.2.1,
    (sc_array_pqueue_claim intCmp intCmp_valid 8 [2, 1]).2.2.2.2.2.1⟩

end SC
